import Mathlib

/-!
# Verification of the PandoraLauncher NBT tag-tree library

Shallow embedding of `crates/nbt/src/lib.rs` (arena, compound index,
recursive node removal) together with a model of the binary codec and the
reference-layer structural equality, which the spec describes but whose
source modules (`decode.rs`, `encode.rs`, `reference.rs`) are not part of
the provided sources.

Conventions:
* Rust `usize` handles are `Nat`.
* Rust `String` keys are modelled as their UTF-8 byte sequences
  (`List Nat`, each element `< 256`); Rust's `Ord` on `str` is bytewise
  lexicographic, embedded as `keyCompare`.
* The slab arena is an association list `List (Nat × NBTNode)` with
  no duplicate keys; a panic is modelled as `Option.none`.
-/

/-- UTF-8 byte sequence of a Rust `String` key. -/
abbrev Key := List Nat

/-- Bytewise lexicographic comparison, the `Ord` instance Rust uses for
`str` in `binary_search_by_key`. -/
def keyCompare : Key → Key → Ordering
  | [], [] => .eq
  | [], _ :: _ => .lt
  | _ :: _, [] => .gt
  | a :: as, b :: bs =>
    if a < b then .lt else if b < a then .gt else keyCompare as bs

theorem keyCompare_eq_iff {a b : Key} : keyCompare a b = .eq ↔ a = b := by
  induction a generalizing b with
  | nil => cases b <;> simp [keyCompare]
  | cons x xs ih =>
    cases b with
    | nil => simp [keyCompare]
    | cons y ys =>
      simp only [keyCompare]
      split_ifs with h1 h2
      · simp; omega
      · simp; omega
      · have : x = y := by omega
        simp [this, ih]

theorem keyCompare_self (a : Key) : keyCompare a a = .eq :=
  keyCompare_eq_iff.mpr rfl

theorem keyCompare_swap (a b : Key) :
    keyCompare b a = (keyCompare a b).swap := by
  induction a generalizing b with
  | nil => cases b <;> simp [keyCompare, Ordering.swap]
  | cons x xs ih =>
    cases b with
    | nil => simp [keyCompare, Ordering.swap]
    | cons y ys =>
      simp only [keyCompare]
      split_ifs with h1 h2 h3 h4 h5 h6 <;>
        simp_all [Ordering.swap] <;> omega

theorem keyCompare_cons_lt {x y : Nat} {xs ys : Key} :
    keyCompare (x :: xs) (y :: ys) = .lt ↔
      x < y ∨ (x = y ∧ keyCompare xs ys = .lt) := by
  simp only [keyCompare]
  split_ifs with h1 h2
  · simp; omega
  · simp; omega
  · have hxy : x = y := by omega
    simp [hxy]

theorem keyCompare_lt_trans {a b c : Key}
    (hab : keyCompare a b = .lt) (hbc : keyCompare b c = .lt) :
    keyCompare a c = .lt := by
  induction a generalizing b c with
  | nil =>
    cases b with
    | nil => simp [keyCompare] at hab
    | cons y ys => cases c with
      | nil => simp [keyCompare] at hbc
      | cons z zs => simp [keyCompare]
  | cons x xs ih =>
    cases b with
    | nil => simp [keyCompare] at hab
    | cons y ys =>
      cases c with
      | nil => simp [keyCompare] at hbc
      | cons z zs =>
        rw [keyCompare_cons_lt] at hab hbc ⊢
        rcases hab with hab | ⟨hab, hab'⟩ <;>
          rcases hbc with hbc | ⟨hbc, hbc'⟩
        · left; omega
        · left; omega
        · left; omega
        · right; exact ⟨by omega, ih hab' hbc'⟩

theorem keyCompare_lt_asymm {a b : Key} (h : keyCompare a b = .lt) :
    keyCompare b a = .gt := by
  rw [keyCompare_swap, h]; rfl

/-- The loop of Rust std's `slice::binary_search_by_key`, as called by
`NBTCompound::binary_search` with the bytewise key order: `Ok index` when
the key is found, `Err insertion_point` otherwise.  The loop variable
`right - left` strictly decreases, so running it with any fuel
`> right - left` is exact (the fuel-exhausted branch returns what the
loop exit returns and is never reached along shrinking iterations). -/
def bsLoop (entries : List (Key × α)) (key : Key) :
    Nat → Nat → Nat → Except Nat Nat
  | 0, left, _right => .error left
  | fuel + 1, left, right =>
    if left < right then
      let mid := left + (right - left) / 2
      match entries.get? mid with
      | none => .error left
      | some e =>
        match keyCompare e.1 key with
        | .lt => bsLoop entries key fuel (mid + 1) right
        | .gt => bsLoop entries key fuel left mid
        | .eq => .ok mid
    else
      .error left

/-- `NBTCompound::binary_search` from `lib.rs`. -/
def NBTCompound.binarySearch (entries : List (Key × α)) (key : Key) :
    Except Nat Nat :=
  bsLoop entries key (entries.length + 1) 0 entries.length

/-- `NBTCompound::find` from `lib.rs`. -/
def NBTCompound.find (entries : List (Key × α)) (key : Key) : Option α :=
  match NBTCompound.binarySearch entries key with
  | .ok index => (entries.get? index).map (·.2)
  | .error _ => none

/-- `NBTCompound::insert` from `lib.rs`: on a hit only the handle of the
hit entry is replaced (`mem::replace` of field `.1`); on a miss the pair is
inserted at the reported insertion point. -/
def NBTCompound.insert (entries : List (Key × α)) (key : Key) (value : α) :
    List (Key × α) :=
  match NBTCompound.binarySearch entries key with
  | .ok index =>
    match entries.get? index with
    | some e => entries.set index (e.1, value)
    | none => entries
  | .error index => entries.insertIdx index (key, value)

/-- `NBTCompound::remove` from `lib.rs`: returns the removed handle (if
any) together with the updated entry vector. -/
def NBTCompound.remove (entries : List (Key × α)) (key : Key) :
    Option α × List (Key × α) :=
  match NBTCompound.binarySearch entries key with
  | .ok index => ((entries.get? index).map (·.2), entries.eraseIdx index)
  | .error _ => (none, entries)

/-- Strictly increasing key order, the compound's internal invariant. -/
def SortedKeys (entries : List (Key × α)) : Prop :=
  entries.Pairwise (fun e f => keyCompare e.1 f.1 = .lt)

theorem sortedKeys_get {entries : List (Key × α)} (h : SortedKeys entries)
    {i j : Nat} {e f : Key × α} (hi : entries.get? i = some e)
    (hj : entries.get? j = some f) (hij : i < j) :
    keyCompare e.1 f.1 = .lt := by
  rw [List.get?_eq_some] at hi hj
  obtain ⟨hi', hie⟩ := hi
  obtain ⟨hj', hjf⟩ := hj
  subst hie hjf
  exact (List.pairwise_iff_get.mp h) ⟨i, hi'⟩ ⟨j, hj'⟩ hij

/-- Postcondition of `NBTCompound::binary_search` on a sorted entry
vector: a hit returns the index of the (unique) entry with the key; a miss
returns the insertion point with all smaller keys strictly to its left and
all larger keys at or to its right. -/
def BSOk (entries : List (Key × α)) (key : Key) : Except Nat Nat → Prop
  | .ok i => ∃ e, entries.get? i = some e ∧ e.1 = key
  | .error i => i ≤ entries.length ∧
      ∀ j e, entries.get? j = some e →
        (j < i → keyCompare e.1 key = .lt) ∧
        (i ≤ j → keyCompare e.1 key = .gt)

theorem bsLoop_exit (entries : List (Key × α)) (key : Key) (left : Nat)
    (hle : left ≤ entries.length)
    (hlo : ∀ j e, entries.get? j = some e → j < left →
      keyCompare e.1 key = .lt)
    (hhi : ∀ j e, entries.get? j = some e → left ≤ j →
      keyCompare e.1 key = .gt) :
    BSOk entries key (.error left) := by
  refine ⟨hle, fun j e hj => ⟨fun hlt => hlo j e hj hlt, fun hge => hhi j e hj hge⟩⟩

theorem bsLoop_spec (entries : List (Key × α)) (key : Key)
    (hs : SortedKeys entries) :
    ∀ fuel left right, right - left ≤ fuel →
    left ≤ right → right ≤ entries.length →
    (∀ j e, entries.get? j = some e → j < left →
      keyCompare e.1 key = .lt) →
    (∀ j e, entries.get? j = some e → right ≤ j →
      keyCompare e.1 key = .gt) →
    BSOk entries key (bsLoop entries key fuel left right) := by
  intro fuel
  induction fuel with
  | zero =>
    intro left right hfuel hlr hrl hlo hhi
    have : left = right := by omega
    subst this
    exact bsLoop_exit entries key left (by omega) hlo
      (fun j e hj hge => hhi j e hj hge)
  | succ fuel ih =>
    intro left right hfuel hlr hrl hlo hhi
    rw [bsLoop]
    by_cases hcond : left < right
    · simp only [hcond, if_true]
      have hmidlt : left + (right - left) / 2 < right := by
        have : (right - left) / 2 < right - left :=
          Nat.div_lt_self (by omega) (by omega)
        omega
      have hmidge : left ≤ left + (right - left) / 2 := by omega
      cases hget : entries.get? (left + (right - left) / 2) with
      | none =>
        rw [List.get?_eq_none] at hget
        omega
      | some e =>
        dsimp only
        cases hcmp : keyCompare e.1 key with
        | lt =>
          dsimp only
          apply ih _ _ (by
            have : (right - left) / 2 < right - left :=
              Nat.div_lt_self (by omega) (by omega)
            omega) (by omega) hrl
          · intro j f hj hjlt
            by_cases hjl : j < left + (right - left) / 2
            · exact keyCompare_lt_trans (sortedKeys_get hs hj hget hjl) hcmp
            · have : j = left + (right - left) / 2 := by omega
              subst this
              rw [hget] at hj
              cases hj
              exact hcmp
          · exact hhi
        | gt =>
          dsimp only
          apply ih _ _ (by
            have : (right - left) / 2 < right - left :=
              Nat.div_lt_self (by omega) (by omega)
            omega) (by omega) (by omega) hlo
          intro j f hj hjge
          by_cases hje : left + (right - left) / 2 < j
          · have h1 : keyCompare e.1 f.1 = .lt := sortedKeys_get hs hget hj hje
            have h2 : keyCompare key e.1 = .lt := by
              rw [keyCompare_swap, hcmp]; rfl
            have := keyCompare_lt_trans h2 h1
            rw [keyCompare_swap, this]; rfl
          · have : j = left + (right - left) / 2 := by omega
            subst this
            rw [hget] at hj
            cases hj
            exact hcmp
        | eq =>
          exact ⟨e, hget, keyCompare_eq_iff.mp hcmp⟩

    · simp only [hcond, if_false]
      have : left = right := by omega
      subst this
      exact bsLoop_exit entries key left (by omega) hlo
        (fun j e hj hge => hhi j e hj hge)

theorem binarySearch_spec (entries : List (Key × α)) (key : Key)
    (hs : SortedKeys entries) :
    BSOk entries key (NBTCompound.binarySearch entries key) := by
  apply bsLoop_spec entries key hs (entries.length + 1) 0 entries.length
    (by omega) (by omega) (le_refl _)
  · intro j e _ hj
    omega
  · intro j e hj hge
    rw [List.get?_eq_some] at hj
    obtain ⟨h, _⟩ := hj
    omega

/-- Modelled from the spec: the naive linear-scan reference `find` the
binary-search implementation must agree with — the first entry whose key
equals the lookup key. -/
def findLinear (entries : List (Key × α)) (key : Key) : Option α :=
  (entries.find? (fun e => e.1 == key)).map (·.2)

/-- Modelled from the spec: linear-scan reference insert on a sorted
entry vector — walk to the key's position, replace the handle on a key
hit, otherwise splice the new pair in at the sorted position. -/
def insertLinear : List (Key × α) → Key → α → List (Key × α)
  | [], key, value => [(key, value)]
  | e :: rest, key, value =>
    match keyCompare e.1 key with
    | .lt => e :: insertLinear rest key value
    | .eq => (e.1, value) :: rest
    | .gt => (key, value) :: e :: rest

/-- Modelled from the spec: linear-scan reference remove — drop the first
entry whose key matches, returning its handle. -/
def removeLinear : List (Key × α) → Key → Option α × List (Key × α)
  | [], _ => (none, [])
  | e :: rest, key =>
    if e.1 == key then (some e.2, rest)
    else
      let r := removeLinear rest key
      (r.1, e :: r.2)


theorem sortedKeys_head_lt {f : Key × α} {rest : List (Key × α)}
    (hs : SortedKeys (f :: rest)) {i : Nat} {e : Key × α}
    (hi : rest.get? i = some e) : keyCompare f.1 e.1 = .lt := by
  have hmem : e ∈ rest := by
    rw [List.mem_iff_get?]; exact ⟨i, hi⟩
  exact (List.pairwise_cons.mp hs).1 e hmem

theorem findLinear_of_hit {key : Key} :
    ∀ {entries : List (Key × α)} {i : Nat} {e : Key × α},
    SortedKeys entries → entries.get? i = some e → e.1 = key →
    findLinear entries key = some e.2 := by
  intro entries
  induction entries with
  | nil => intro i e _ hi; simp at hi
  | cons f rest ih =>
    intro i e hs hi hek
    cases i with
    | zero =>
      have hfe : f = e := by simpa using hi
      subst hfe
      simp [findLinear, List.find?_cons, hek]
    | succ i =>
      have hi' : rest.get? i = some e := by simpa using hi
      have hne : (f.1 == key) = false := by
        have hlt : keyCompare f.1 e.1 = .lt := sortedKeys_head_lt hs hi'
        rw [beq_eq_false_iff_ne]
        intro hcontra
        rw [hek] at hlt
        rw [← hcontra, keyCompare_self] at hlt
        simp at hlt
      have := ih (List.Pairwise.of_cons hs) hi' hek
      simpa [findLinear, List.find?_cons, hne] using this

theorem findLinear_of_miss {entries : List (Key × α)} {key : Key}
    (h : ∀ e ∈ entries, e.1 ≠ key) : findLinear entries key = none := by
  have : entries.find? (fun e => e.1 == key) = none := by
    rw [List.find?_eq_none]
    intro e he
    simpa using h e he
  simp [findLinear, this]

theorem insertLinear_hit {key : Key} {value : α} :
    ∀ {entries : List (Key × α)} {i : Nat} {e : Key × α},
    SortedKeys entries → entries.get? i = some e → e.1 = key →
    insertLinear entries key value = entries.set i (e.1, value) := by
  intro entries
  induction entries with
  | nil => intro i e _ hi; simp at hi
  | cons f rest ih =>
    intro i e hs hi hek
    cases i with
    | zero =>
      have hfe : f = e := by simpa using hi
      subst hfe
      have hq : keyCompare f.1 key = .eq := by
        rw [hek]; exact keyCompare_self _
      simp [insertLinear, hq]
    | succ i =>
      have hi' : rest.get? i = some e := by simpa using hi
      have hlt : keyCompare f.1 key = .lt := by
        rw [← hek]; exact sortedKeys_head_lt hs hi'
      simp [insertLinear, hlt, ih (List.Pairwise.of_cons hs) hi' hek]

theorem insertLinear_miss {key : Key} {value : α} :
    ∀ {entries : List (Key × α)} {i : Nat}, i ≤ entries.length →
    (∀ j e, entries.get? j = some e → j < i → keyCompare e.1 key = .lt) →
    (∀ j e, entries.get? j = some e → i ≤ j → keyCompare e.1 key = .gt) →
    insertLinear entries key value = entries.insertIdx i (key, value) := by
  intro entries
  induction entries with
  | nil =>
    intro i hle _ _
    simp at hle
    subst hle
    simp [insertLinear, List.insertIdx]
  | cons f rest ih =>
    intro i hle hlo hhi
    cases i with
    | zero =>
      have hgt : keyCompare f.1 key = .gt := hhi 0 f (by simp) (by omega)
      simp [insertLinear, hgt, List.insertIdx]
    | succ i =>
      have hlt : keyCompare f.1 key = .lt := hlo 0 f (by simp) (by omega)
      rw [List.insertIdx_succ_cons]
      have := ih (by simpa using hle)
        (fun j e hj hji => hlo (j + 1) e (by simpa using hj) (by omega))
        (fun j e hj hji => hhi (j + 1) e (by simpa using hj) (by omega))
      simp [insertLinear, hlt, this]

theorem removeLinear_hit {key : Key} :
    ∀ {entries : List (Key × α)} {i : Nat} {e : Key × α},
    SortedKeys entries → entries.get? i = some e → e.1 = key →
    removeLinear entries key = (some e.2, entries.eraseIdx i) := by
  intro entries
  induction entries with
  | nil => intro i e _ hi; simp at hi
  | cons f rest ih =>
    intro i e hs hi hek
    cases i with
    | zero =>
      have hfe : f = e := by simpa using hi
      subst hfe
      simp [removeLinear, hek, List.eraseIdx_cons_zero]
    | succ i =>
      have hi' : rest.get? i = some e := by simpa using hi
      have hne : (f.1 == key) = false := by
        have hlt : keyCompare f.1 e.1 = .lt := sortedKeys_head_lt hs hi'
        rw [beq_eq_false_iff_ne]
        intro hcontra
        rw [hek] at hlt
        rw [← hcontra, keyCompare_self] at hlt
        simp at hlt
      rw [List.eraseIdx_cons_succ]
      simp [removeLinear, hne, ih (List.Pairwise.of_cons hs) hi' hek]

theorem removeLinear_miss {key : Key} :
    ∀ {entries : List (Key × α)},
    (∀ e ∈ entries, e.1 ≠ key) →
    removeLinear entries key = (none, entries) := by
  intro entries
  induction entries with
  | nil => intro; simp [removeLinear]
  | cons f rest ih =>
    intro h
    have hne : (f.1 == key) = false := by
      rw [beq_eq_false_iff_ne]
      exact h f (by simp)
    simp [removeLinear, hne, ih (fun e he => h e (by simp [he]))]

theorem bsok_error_not_mem {entries : List (Key × α)} {key : Key} {i : Nat}
    (h : BSOk entries key (.error i)) :
    ∀ e ∈ entries, e.1 ≠ key := by
  intro e he hek
  rw [List.mem_iff_get?] at he
  obtain ⟨j, hj⟩ := he
  obtain ⟨-, hbr⟩ := h
  have heq : keyCompare e.1 key = .eq := by
    rw [hek]; exact keyCompare_self _
  rcases Nat.lt_or_ge j i with hji | hji
  · have := (hbr j e hj).1 hji
    rw [heq] at this
    simp at this
  · have := (hbr j e hj).2 hji
    rw [heq] at this
    simp at this

theorem find_eq_findLinear {entries : List (Key × α)} {key : Key}
    (hs : SortedKeys entries) :
    NBTCompound.find entries key = findLinear entries key := by
  have hbs := binarySearch_spec entries key hs
  unfold NBTCompound.find
  cases h : NBTCompound.binarySearch entries key with
  | ok i =>
    rw [h] at hbs
    obtain ⟨e, hget, hek⟩ := hbs
    dsimp only
    rw [hget, findLinear_of_hit hs hget hek]
    rfl
  | error i =>
    rw [h] at hbs
    dsimp only
    rw [findLinear_of_miss (bsok_error_not_mem hbs)]

theorem insert_eq_insertLinear {entries : List (Key × α)} {key : Key}
    {value : α} (hs : SortedKeys entries) :
    NBTCompound.insert entries key value = insertLinear entries key value := by
  have hbs := binarySearch_spec entries key hs
  unfold NBTCompound.insert
  cases h : NBTCompound.binarySearch entries key with
  | ok i =>
    rw [h] at hbs
    obtain ⟨e, hget, hek⟩ := hbs
    dsimp only
    rw [hget]
    dsimp only
    rw [insertLinear_hit hs hget hek]
  | error i =>
    rw [h] at hbs
    obtain ⟨hle, hbr⟩ := hbs
    dsimp only
    rw [insertLinear_miss hle
      (fun j e hj hji => (hbr j e hj).1 hji)
      (fun j e hj hji => (hbr j e hj).2 hji)]

theorem remove_eq_removeLinear {entries : List (Key × α)} {key : Key}
    (hs : SortedKeys entries) :
    NBTCompound.remove entries key = removeLinear entries key := by
  have hbs := binarySearch_spec entries key hs
  unfold NBTCompound.remove
  cases h : NBTCompound.binarySearch entries key with
  | ok i =>
    rw [h] at hbs
    obtain ⟨e, hget, hek⟩ := hbs
    dsimp only
    rw [hget, removeLinear_hit hs hget hek]
    rfl
  | error i =>
    rw [h] at hbs
    dsimp only
    rw [removeLinear_miss (bsok_error_not_mem hbs)]

theorem find_iff_mem {entries : List (Key × α)} {key : Key} {h : α}
    (hs : SortedKeys entries) :
    NBTCompound.find entries key = some h ↔ (key, h) ∈ entries := by
  constructor
  · intro hf
    have hbs := binarySearch_spec entries key hs
    unfold NBTCompound.find at hf
    cases hcase : NBTCompound.binarySearch entries key with
    | ok i =>
      rw [hcase] at hbs hf
      obtain ⟨e, hget, hek⟩ := hbs
      dsimp only at hf
      rw [hget] at hf
      simp at hf
      have : e = (key, h) := by
        cases e
        simp_all
      rw [← this]
      rw [List.mem_iff_get?]
      exact ⟨i, hget⟩
    | error i =>
      rw [hcase] at hf
      dsimp only at hf
      simp at hf
  · intro hmem
    rw [List.mem_iff_get?] at hmem
    obtain ⟨i, hi⟩ := hmem
    rw [find_eq_findLinear hs, findLinear_of_hit hs hi rfl]

theorem mem_insertLinear {key : Key} {value : α} :
    ∀ {entries : List (Key × α)} {f : Key × α},
    f ∈ insertLinear entries key value → f.1 = key ∨ f ∈ entries := by
  intro entries
  induction entries with
  | nil =>
    intro f hf
    simp [insertLinear] at hf
    left; rw [hf]
  | cons e rest ih =>
    intro f hf
    cases hc : keyCompare e.1 key with
    | lt =>
      simp only [insertLinear, hc] at hf
      rcases List.mem_cons.mp hf with hfe | hfr
      · right; simp [hfe]
      · rcases ih hfr with h1 | h2
        · left; exact h1
        · right; simp [h2]
    | eq =>
      simp only [insertLinear, hc] at hf
      rcases List.mem_cons.mp hf with hfe | hfr
      · left; rw [hfe]; exact keyCompare_eq_iff.mp hc
      · right; simp [hfr]
    | gt =>
      simp only [insertLinear, hc] at hf
      rcases List.mem_cons.mp hf with hfe | hfr
      · left; rw [hfe]
      · right; exact hfr

theorem sortedKeys_insertLinear {key : Key} {value : α} :
    ∀ {entries : List (Key × α)}, SortedKeys entries →
    SortedKeys (insertLinear entries key value) := by
  intro entries
  induction entries with
  | nil => intro; simp [insertLinear, SortedKeys]
  | cons e rest ih =>
    intro hs
    have hhead := (List.pairwise_cons.mp hs).1
    have hrest := (List.pairwise_cons.mp hs).2
    cases hc : keyCompare e.1 key with
    | lt =>
      simp only [insertLinear, hc]
      rw [SortedKeys, List.pairwise_cons]
      refine ⟨fun f hf => ?_, ih hrest⟩
      rcases mem_insertLinear hf with h1 | h2
      · rw [h1]; exact hc
      · exact hhead f h2
    | eq =>
      simp only [insertLinear, hc]
      rw [SortedKeys, List.pairwise_cons]
      exact ⟨fun f hf => hhead f hf, hrest⟩
    | gt =>
      simp only [insertLinear, hc]
      rw [SortedKeys, List.pairwise_cons]
      constructor
      · intro f hf
        have hke : keyCompare key e.1 = .lt := by
          rw [keyCompare_swap, hc]; rfl
        rcases List.mem_cons.mp hf with hfe | hfr
        · rw [hfe]; exact hke
        · exact keyCompare_lt_trans hke (hhead f hfr)
      · exact hs

theorem removeLinear_sublist {key : Key} :
    ∀ (entries : List (Key × α)),
    (removeLinear entries key).2.Sublist entries := by
  intro entries
  induction entries with
  | nil => simp [removeLinear]
  | cons e rest ih =>
    by_cases hc : (e.1 == key) = true
    · simp only [removeLinear, hc, if_true]
      exact List.sublist_cons_self e rest
    · rw [eq_comm, ← ne_eq, ne_comm] at hc
      simp only [removeLinear, eq_false_of_ne_true hc, if_false]
      exact List.Sublist.cons₂ e ih

theorem sortedKeys_removeLinear {key : Key} {entries : List (Key × α)}
    (hs : SortedKeys entries) :
    SortedKeys (removeLinear entries key).2 :=
  List.Pairwise.sublist (removeLinear_sublist entries) hs

theorem sortedKeys_insert {key : Key} {value : α}
    {entries : List (Key × α)} (hs : SortedKeys entries) :
    SortedKeys (NBTCompound.insert entries key value) := by
  rw [insert_eq_insertLinear hs]
  exact sortedKeys_insertLinear hs

theorem sortedKeys_remove {key : Key} {entries : List (Key × α)}
    (hs : SortedKeys entries) :
    SortedKeys (NBTCompound.remove entries key).2 := by
  rw [remove_eq_removeLinear hs]
  exact sortedKeys_removeLinear hs

theorem filter_key_eq_nil_of_gt {K : Key} {c : List (Key × α)}
    (h : ∀ f ∈ c, keyCompare f.1 K = .gt) :
    c.filter (fun e => e.1 == K) = [] := by
  rw [List.filter_eq_nil_iff]
  intro e he
  have hgt := h e he
  simp only [beq_iff_eq]
  intro hcontra
  rw [hcontra, keyCompare_self] at hgt
  simp at hgt

theorem filter_insertLinear_self {K : Key} {v : α} :
    ∀ {c : List (Key × α)}, SortedKeys c →
    (insertLinear c K v).filter (fun e => e.1 == K) = [(K, v)] := by
  intro c
  induction c with
  | nil => intro; simp [insertLinear]
  | cons e rest ih =>
    intro hs
    have hhead := (List.pairwise_cons.mp hs).1
    have hrest := (List.pairwise_cons.mp hs).2
    cases hc : keyCompare e.1 K with
    | lt =>
      have hne : ¬(e.1 == K) = true := by
        simp only [beq_iff_eq]
        intro hcontra
        rw [hcontra, keyCompare_self] at hc
        simp at hc
      simp only [insertLinear, hc]
      rw [List.filter_cons_of_neg (p := fun (f : Key × α) => f.1 == K) hne]
      exact ih hrest
    | eq =>
      have heK : e.1 = K := keyCompare_eq_iff.mp hc
      simp only [insertLinear, hc]
      rw [List.filter_cons_of_pos (p := fun (f : Key × α) => f.1 == K) (by simp [heK])]
      rw [filter_key_eq_nil_of_gt (fun f hf => ?_), heK]
      have hlt : keyCompare e.1 f.1 = .lt := hhead f hf
      rw [← heK, keyCompare_swap, hlt]
      rfl
    | gt =>
      simp only [insertLinear, hc]
      rw [List.filter_cons_of_pos (p := fun (f : Key × α) => f.1 == K) (by simp)]
      rw [filter_key_eq_nil_of_gt (fun f hf => ?_)]
      rcases List.mem_cons.mp hf with hfe | hfr
      · rw [hfe]; exact hc
      · have h1 : keyCompare K e.1 = .lt := by
          rw [keyCompare_swap, hc]; rfl
        have h2 : keyCompare e.1 f.1 = .lt := hhead f hfr
        have := keyCompare_lt_trans h1 h2
        rw [keyCompare_swap, this]
        rfl

theorem filter_insertLinear_other {K k : Key} {v : α} (hk : k ≠ K) :
    ∀ {c : List (Key × α)},
    (insertLinear c k v).filter (fun e => e.1 == K) =
      c.filter (fun e => e.1 == K) := by
  intro c
  induction c with
  | nil => simp [insertLinear, List.filter_cons_of_neg, hk]
  | cons e rest ih =>
    cases hc : keyCompare e.1 k with
    | lt =>
      simp only [insertLinear, hc]
      rw [List.filter_cons, List.filter_cons, ih]
    | eq =>
      have hek : e.1 = k := keyCompare_eq_iff.mp hc
      have hne : ¬(e.1 == K) = true := by
        simp only [beq_iff_eq]
        rw [hek]
        exact hk
      simp only [insertLinear, hc]
      rw [List.filter_cons_of_neg (p := fun (f : Key × α) => f.1 == K) (by simpa [hek] using hk),
        List.filter_cons_of_neg (p := fun (f : Key × α) => f.1 == K) hne]
    | gt =>
      simp only [insertLinear, hc]
      rw [List.filter_cons_of_neg (p := fun (f : Key × α) => f.1 == K) (by simpa using hk)]

/-- Value carried by the most recent insert with key `K` in an operation
sequence (later operations listed later). -/
def lastValue (K : Key) : List (Key × Nat) → Option Nat
  | [] => none
  | (k, v) :: rest =>
    match lastValue K rest with
    | some v' => some v'
    | none => if k == K then some v else none

theorem lastValue_none_not_mem {K : Key} :
    ∀ {ops : List (Key × Nat)}, lastValue K ops = none →
    ∀ p ∈ ops, p.1 ≠ K := by
  intro ops
  induction ops with
  | nil => intro _ p hp; simp at hp
  | cons q rest ih =>
    intro h p hp
    obtain ⟨k, v⟩ := q
    simp only [lastValue] at h
    cases hl : lastValue K rest with
    | some v' => rw [hl] at h; simp at h
    | none =>
      rw [hl] at h
      have hk : ¬(k == K) = true := by
        intro hcontra
        rw [if_pos hcontra] at h
        simp at h
      rcases List.mem_cons.mp hp with hpe | hpr
      · rw [hpe]
        simpa using hk
      · exact ih hl p hpr

theorem filter_foldl_insert_untouched {K : Key} :
    ∀ {ops : List (Key × Nat)} {c : List (Key × Nat)},
    SortedKeys c → (∀ p ∈ ops, p.1 ≠ K) →
    (ops.foldl (fun acc p => NBTCompound.insert acc p.1 p.2) c).filter
      (fun e => e.1 == K) = c.filter (fun e => e.1 == K) := by
  intro ops
  induction ops with
  | nil => intro c _ _; rfl
  | cons q rest ih =>
    intro c hs hne
    simp only [List.foldl_cons]
    rw [ih (sortedKeys_insert hs) (fun p hp => hne p (by simp [hp]))]
    rw [insert_eq_insertLinear hs]
    exact filter_insertLinear_other (hne q (by simp))

/-- C8: on a compound whose entries are sorted strictly by key, the
binary-search-based `find`, `insert`, `remove` of `NBTCompound` behave
identically to the naive linear-scan reference implementations, and
`find key = some handle` holds iff the entry `(key, handle)` is present. -/
theorem c8_compound_ops_refine_linear_scan (entries : List (Key × Nat))
    (key : Key) (value handle : Nat) (hs : SortedKeys entries) :
    NBTCompound.find entries key = findLinear entries key ∧
    NBTCompound.insert entries key value = insertLinear entries key value ∧
    NBTCompound.remove entries key = removeLinear entries key ∧
    (NBTCompound.find entries key = some handle ↔ (key, handle) ∈ entries) :=
  ⟨find_eq_findLinear hs, insert_eq_insertLinear hs,
    remove_eq_removeLinear hs, find_iff_mem hs⟩

theorem c8_compound_ops_refine_linear_scan_witness :
    NBTCompound.find [([97], 1), ([98], 2)] [98] =
      findLinear [([97], 1), ([98], 2)] [98] ∧
    NBTCompound.insert [([97], 1), ([98], 2)] [98] 7 =
      insertLinear [([97], 1), ([98], 2)] [98] 7 ∧
    NBTCompound.remove [([97], 1), ([98], 2)] [98] =
      removeLinear [([97], 1), ([98], 2)] [98] ∧
    (NBTCompound.find [([97], 1), ([98], 2)] [98] = some 2 ↔
      ([98], 2) ∈ [([97], 1), ([98], 2)]) :=
  c8_compound_ops_refine_linear_scan [([97], 1), ([98], 2)] [98] 7 2
    (by unfold SortedKeys; decide)

/-- A mutation step on a compound's entry vector: keyed insert or keyed
remove, as dispatched to `NBTCompound::insert` / `NBTCompound::remove`. -/
inductive CompOp where
  | ins (key : Key) (value : Nat)
  | del (key : Key)

def applyOp (entries : List (Key × Nat)) : CompOp → List (Key × Nat)
  | .ins key value => NBTCompound.insert entries key value
  | .del key => (NBTCompound.remove entries key).2

/-- C4: starting from the empty compound, after every sequence of insert
and remove operations the entry list's keys are strictly increasing
(sorted, hence duplicate-free). -/
theorem c4_sorted_invariant (ops : List CompOp) :
    SortedKeys (ops.foldl applyOp ([] : List (Key × Nat))) := by
  have h : ∀ c, SortedKeys c → SortedKeys (ops.foldl applyOp c) := by
    induction ops with
    | nil => intro c hc; exact hc
    | cons op rest ih =>
      intro c hc
      simp only [List.foldl_cons]
      apply ih
      cases op with
      | ins k v => exact sortedKeys_insert hc
      | del k => exact sortedKeys_remove hc
  exact h [] (by simp [SortedKeys])

/-- C3: for every sorted compound and sequence of inserts, any key K that
the sequence inserts has afterwards exactly one entry in the compound, and
that entry carries the value of the most recent insert with key K. -/
theorem c3_insert_overwrites_most_recent :
    ∀ (ops : List (Key × Nat)) (c : List (Key × Nat)) (K : Key) (v : Nat),
    SortedKeys c → lastValue K ops = some v →
    (ops.foldl (fun acc p => NBTCompound.insert acc p.1 p.2) c).filter
      (fun e => e.1 == K) = [(K, v)] := by
  intro ops
  induction ops with
  | nil => intro c K v _ hl; simp [lastValue] at hl
  | cons q rest ih =>
    intro c K v hs hl
    obtain ⟨k, w⟩ := q
    simp only [lastValue] at hl
    simp only [List.foldl_cons]
    cases hlr : lastValue K rest with
    | some v' =>
      rw [hlr] at hl
      simp only [Option.some.injEq] at hl
      subst hl
      exact ih _ K v' (sortedKeys_insert hs) hlr
    | none =>
      rw [hlr] at hl
      by_cases hk : (k == K) = true
      · rw [if_pos hk] at hl
        simp only [Option.some.injEq] at hl
        have hkK : k = K := by simpa using hk
        subst hkK
        subst hl
        rw [filter_foldl_insert_untouched (sortedKeys_insert hs)
          (lastValue_none_not_mem hlr)]
        rw [insert_eq_insertLinear hs]
        exact filter_insertLinear_self hs
      · rw [if_neg hk] at hl
        simp at hl

theorem c3_insert_overwrites_most_recent_witness :
    (([([107], 1), ([107], 2)] : List (Key × Nat)).foldl
      (fun acc p => NBTCompound.insert acc p.1 p.2) []).filter
      (fun e => e.1 == [107]) = [([107], 2)] :=
  c3_insert_overwrites_most_recent [([107], 1), ([107], 2)] [] [107] 2
    (by unfold SortedKeys; decide) (by decide)

/-- `NBTNode` from `lib.rs`.  Integer payloads carry the mathematical
value of the Rust integer; `Float`/`Double` carry the raw IEEE-754 bit
pattern (the library only stores and moves these payloads). -/
inductive NBTNode where
  | Byte (v : ℤ)
  | Short (v : ℤ)
  | Int (v : ℤ)
  | Long (v : ℤ)
  | Float (bits : ℕ)
  | Double (bits : ℕ)
  | ByteArray (v : List ℤ)
  | String (v : List ℕ)
  | List (type_id : ℕ) (children : List ℕ)
  | Compound (entries : List (Key × ℕ))
  | IntArray (v : List ℤ)
  | LongArray (v : List ℤ)
  deriving DecidableEq

/-- The slab arena of a tree: handle-to-node association list.  A live
slab never holds two slots with one index, so erasure is modelled as
filtering the index out. -/
abbrev Arena := List (Nat × NBTNode)

def lookupArena (arena : Arena) (idx : Nat) : Option NBTNode :=
  (arena.find? (fun p => p.1 == idx)).map (·.2)

def eraseArena (arena : Arena) (idx : Nat) : Arena :=
  arena.filter (fun p => p.1 != idx)

/-- The child handles `NBT::remove_node` recurses into: a list node's
`children` vector, or the handles of a compound node's entries. -/
def childrenOf : NBTNode → Option (List Nat)
  | .List _ children => some children
  | .Compound entries => some (entries.map (·.2))
  | _ => none

mutual
/-- `NBT::remove_node` from `lib.rs`: panics (`none`) on the root handle 0
and on a vacant slot; removes the slot, then recursively removes every
child of a list/compound node.  `fuel` bounds the recursion depth; the
entry point `removeNode` supplies more fuel than any acyclic arena can
consume, so exhaustion (`none`) coincides with the panic cases. -/
def removeNodeFuel : Nat → Arena → Nat → Option Arena
  | 0, _, _ => none
  | fuel + 1, arena, idx =>
    if idx = 0 then none
    else
      match lookupArena arena idx with
      | none => none
      | some node =>
        match childrenOf node with
        | some cs => removeChildrenFuel fuel (eraseArena arena idx) cs
        | none => some (eraseArena arena idx)
def removeChildrenFuel : Nat → Arena → List Nat → Option Arena
  | _, arena, [] => some arena
  | 0, _, _ :: _ => none
  | fuel + 1, arena, c :: cs =>
    match removeNodeFuel fuel arena c with
    | none => none
    | some arena' => removeChildrenFuel fuel arena' cs
end

/-- Fuel sufficient for any removal in an arena of this size: one unit
per removed node plus one per child-list step. -/
def removeFuel (arena : Arena) : Nat :=
  2 * arena.length + 2

def removeNode (arena : Arena) (idx : Nat) : Option Arena :=
  removeNodeFuel (removeFuel arena) arena idx

mutual
/-- The handle set of the subtree rooted at `idx` (preorder), with the
same recursion shape and fuel discipline as `removeNodeFuel`; `some s`
certifies that every subtree slot exists in the arena. -/
def collectFuel : Nat → Arena → Nat → Option (List Nat)
  | 0, _, _ => none
  | fuel + 1, arena, idx =>
    match lookupArena arena idx with
    | none => none
    | some node =>
      match childrenOf node with
      | some cs => (collectChildrenFuel fuel arena cs).map (idx :: ·)
      | none => some [idx]
def collectChildrenFuel : Nat → Arena → List Nat → Option (List Nat)
  | _, _, [] => some []
  | 0, _, _ :: _ => none
  | fuel + 1, arena, c :: cs =>
    match collectFuel fuel arena c, collectChildrenFuel fuel arena cs with
    | some s, some ss => some (s ++ ss)
    | _, _ => none
end

theorem find?_filter_key {k : Nat} {q : Nat × NBTNode → Bool}
    (h : ∀ node, q (k, node) = true) :
    ∀ {arena : Arena},
    (arena.filter q).find? (fun p => p.1 == k) =
      arena.find? (fun p => p.1 == k) := by
  intro arena
  induction arena with
  | nil => rfl
  | cons p rest ih =>
    by_cases hpk : (p.1 == k) = true
    · have hq : q p = true := by
        have hp : p = (k, p.2) := by
          have : p.1 = k := by simpa using hpk
          cases p
          simp_all
        rw [hp]
        exact h p.2
      simp [List.filter_cons_of_pos hq, List.find?_cons, hpk]
    · have hpk' : (p.1 == k) = false := eq_false_of_ne_true hpk
      by_cases hq : q p = true
      · simp [List.filter_cons_of_pos hq, List.find?_cons, hpk', ih]
      · simp [List.filter_cons_of_neg hq, List.find?_cons, hpk', ih]

theorem lookupArena_filter_of_key {arena : Arena} {k : Nat}
    {q : Nat × NBTNode → Bool} (h : ∀ node, q (k, node) = true) :
    lookupArena (arena.filter q) k = lookupArena arena k := by
  unfold lookupArena
  rw [find?_filter_key h]

theorem lookupArena_erase_ne {arena : Arena} {idx k : Nat} (h : k ≠ idx) :
    lookupArena (eraseArena arena idx) k = lookupArena arena k := by
  unfold eraseArena
  apply lookupArena_filter_of_key
  intro node
  simpa using h

theorem lookupArena_filter_not_mem {arena : Arena} {s : List Nat} {k : Nat}
    (h : k ∉ s) :
    lookupArena (arena.filter (fun p => !decide (p.1 ∈ s))) k =
      lookupArena arena k := by
  apply lookupArena_filter_of_key
  intro node
  simpa using h

theorem filter_not_mem_nil (arenaB : Arena) :
    arenaB.filter (fun p => !decide (p.1 ∈ ([] : List Nat))) = arenaB := by
  simp

theorem erase_eq_filter_singleton (arenaB : Arena) (idx : Nat) :
    eraseArena arenaB idx =
      arenaB.filter (fun p => !decide (p.1 ∈ [idx])) := by
  unfold eraseArena
  apply List.filter_congr
  intro a _
  by_cases h : a.1 = idx <;> simp [h]

theorem filter_erase_cons (arenaB : Arena) (idx : Nat) (ss : List Nat) :
    (eraseArena arenaB idx).filter (fun p => !decide (p.1 ∈ ss)) =
      arenaB.filter (fun p => !decide (p.1 ∈ idx :: ss)) := by
  unfold eraseArena
  rw [List.filter_filter]
  apply List.filter_congr
  intro a _
  by_cases h1 : a.1 = idx <;> by_cases h2 : a.1 ∈ ss <;> simp [h1, h2]

theorem filter_filter_append (arenaB : Arena) (s1 s2 : List Nat) :
    (arenaB.filter (fun p => !decide (p.1 ∈ s1))).filter
      (fun p => !decide (p.1 ∈ s2)) =
      arenaB.filter (fun p => !decide (p.1 ∈ s1 ++ s2)) := by
  rw [List.filter_filter]
  apply List.filter_congr
  intro a _
  by_cases h1 : a.1 ∈ s1 <;> by_cases h2 : a.1 ∈ s2 <;> simp [h1, h2]

theorem removeNodeFuel_collect :
    ∀ fuel : Nat,
    (∀ (arena arenaB : Arena) (idx : Nat) (s : List Nat),
      collectFuel fuel arena idx = some s → s.Nodup → 0 ∉ s →
      (∀ k ∈ s, lookupArena arenaB k = lookupArena arena k) →
      removeNodeFuel fuel arenaB idx =
        some (arenaB.filter (fun p => !decide (p.1 ∈ s)))) ∧
    (∀ (arena arenaB : Arena) (cs ss : List Nat),
      collectChildrenFuel fuel arena cs = some ss → ss.Nodup → 0 ∉ ss →
      (∀ k ∈ ss, lookupArena arenaB k = lookupArena arena k) →
      removeChildrenFuel fuel arenaB cs =
        some (arenaB.filter (fun p => !decide (p.1 ∈ ss)))) := by
  intro fuel
  induction fuel with
  | zero =>
    constructor
    · intro arena arenaB idx s hc
      simp [collectFuel] at hc
    · intro arena arenaB cs ss hc hnd h0 hag
      cases cs with
      | nil =>
        have hss : ss = [] := by simpa [collectChildrenFuel] using hc.symm
        subst hss
        simp only [removeChildrenFuel]
        rw [filter_not_mem_nil]
      | cons c cs' => simp [collectChildrenFuel] at hc
  | succ fuel ih =>
    obtain ⟨ihP, ihQ⟩ := ih
    constructor
    · intro arena arenaB idx s hc hnd h0 hag
      simp only [collectFuel] at hc
      cases hl : lookupArena arena idx with
      | none => rw [hl] at hc; simp at hc
      | some node =>
        rw [hl] at hc
        dsimp only at hc
        cases hch : childrenOf node with
        | none =>
          rw [hch] at hc
          dsimp only at hc
          have hs : [idx] = s := by simpa using hc
          subst hs
          have hidx0 : ¬(idx = 0) := by
            intro h
            exact h0 (by simp [h])
          simp only [removeNodeFuel]
          rw [if_neg hidx0]
          have hlB : lookupArena arenaB idx = some node := by
            rw [hag idx (by simp)]
            exact hl
          rw [hlB]
          dsimp only
          rw [hch]
          dsimp only
          rw [erase_eq_filter_singleton]
        | some cs =>
          rw [hch] at hc
          dsimp only at hc
          rw [Option.map_eq_some'] at hc
          obtain ⟨ss, hss, hcons⟩ := hc
          subst hcons
          rw [List.nodup_cons] at hnd
          obtain ⟨hidxss, hssnd⟩ := hnd
          have hidx0 : ¬(idx = 0) := by
            intro h
            exact h0 (by simp [h])
          simp only [removeNodeFuel]
          rw [if_neg hidx0]
          have hlB : lookupArena arenaB idx = some node := by
            rw [hag idx (by simp)]
            exact hl
          rw [hlB]
          dsimp only
          rw [hch]
          dsimp only
          rw [ihQ arena (eraseArena arenaB idx) cs ss hss hssnd
            (fun hcontra => h0 (by simp [hcontra]))
            (fun k hk => by
              rw [lookupArena_erase_ne (fun hcontra => hidxss (by rw [← hcontra]; exact hk))]
              exact hag k (by simp [hk]))]
          rw [filter_erase_cons]
    · intro arena arenaB cs ss hc hnd h0 hag
      cases cs with
      | nil =>
        have hss : ss = [] := by simpa [collectChildrenFuel] using hc.symm
        subst hss
        simp only [removeChildrenFuel]
        rw [filter_not_mem_nil]
      | cons c cs' =>
        simp only [collectChildrenFuel] at hc
        cases h1 : collectFuel fuel arena c with
        | none => rw [h1] at hc; simp at hc
        | some s1 =>
          rw [h1] at hc
          cases h2 : collectChildrenFuel fuel arena cs' with
          | none => rw [h2] at hc; simp at hc
          | some s2 =>
            rw [h2] at hc
            dsimp only at hc
            have hsseq : s1 ++ s2 = ss := by simpa using hc
            subst hsseq
            rw [List.nodup_append] at hnd
            obtain ⟨h1nd, h2nd, hdisj⟩ := hnd
            have h01 : 0 ∉ s1 := fun hcontra => h0 (by simp [hcontra])
            have h02 : 0 ∉ s2 := fun hcontra => h0 (by simp [hcontra])
            simp only [removeChildrenFuel]
            rw [ihP arena arenaB c s1 h1 h1nd h01
              (fun k hk => hag k (by simp [hk]))]
            dsimp only
            rw [ihQ arena (arenaB.filter (fun p => !decide (p.1 ∈ s1)))
              cs' s2 h2 h2nd h02
              (fun k hk => by
                rw [lookupArena_filter_not_mem
                  (fun hcontra => hdisj hcontra hk)]
                exact hag k (by simp [hk]))]
            rw [filter_filter_append]

theorem collectFuel_lookup :
    ∀ fuel : Nat,
    (∀ (arena : Arena) (idx : Nat) (s : List Nat),
      collectFuel fuel arena idx = some s →
      ∀ k ∈ s, ∃ n, lookupArena arena k = some n) ∧
    (∀ (arena : Arena) (cs ss : List Nat),
      collectChildrenFuel fuel arena cs = some ss →
      ∀ k ∈ ss, ∃ n, lookupArena arena k = some n) := by
  intro fuel
  induction fuel with
  | zero =>
    constructor
    · intro arena idx s hc
      simp [collectFuel] at hc
    · intro arena cs ss hc k hk
      cases cs with
      | nil =>
        have hss : ss = [] := by simpa [collectChildrenFuel] using hc.symm
        subst hss
        simp at hk
      | cons c cs' => simp [collectChildrenFuel] at hc
  | succ fuel ih =>
    obtain ⟨ihP, ihQ⟩ := ih
    constructor
    · intro arena idx s hc k hk
      simp only [collectFuel] at hc
      cases hl : lookupArena arena idx with
      | none => rw [hl] at hc; simp at hc
      | some node =>
        rw [hl] at hc
        dsimp only at hc
        cases hch : childrenOf node with
        | none =>
          rw [hch] at hc
          dsimp only at hc
          have hs : [idx] = s := by simpa using hc
          subst hs
          simp at hk
          subst hk
          exact ⟨node, hl⟩
        | some cs =>
          rw [hch] at hc
          dsimp only at hc
          rw [Option.map_eq_some'] at hc
          obtain ⟨ss, hss, hcons⟩ := hc
          subst hcons
          rcases List.mem_cons.mp hk with hkidx | hkss
          · subst hkidx
            exact ⟨node, hl⟩
          · exact ihQ arena cs ss hss k hkss
    · intro arena cs ss hc k hk
      cases cs with
      | nil =>
        have hss : ss = [] := by simpa [collectChildrenFuel] using hc.symm
        subst hss
        simp at hk
      | cons c cs' =>
        simp only [collectChildrenFuel] at hc
        cases h1 : collectFuel fuel arena c with
        | none => rw [h1] at hc; simp at hc
        | some s1 =>
          rw [h1] at hc
          cases h2 : collectChildrenFuel fuel arena cs' with
          | none => rw [h2] at hc; simp at hc
          | some s2 =>
            rw [h2] at hc
            dsimp only at hc
            have hsseq : s1 ++ s2 = ss := by simpa using hc
            subst hsseq
            rcases List.mem_append.mp hk with hk1 | hk2
            · exact ihP arena c s1 h1 k hk1
            · exact ihQ arena cs' s2 h2 k hk2

theorem lookupArena_some_mem_keys {arena : Arena} {k : Nat} {n : NBTNode}
    (h : lookupArena arena k = some n) : k ∈ arena.map Prod.fst := by
  unfold lookupArena at h
  rw [Option.map_eq_some'] at h
  obtain ⟨p, hp, _⟩ := h
  have hmem := List.mem_of_find?_eq_some hp
  have hpk := List.find?_some (p := fun (q : Nat × NBTNode) => q.1 == k) hp
  have hp1 : p.1 = k := by simpa using hpk
  rw [← hp1]
  exact List.mem_map_of_mem _ hmem

theorem length_filter_not_mem_add :
    ∀ {arena : Arena} {s : List Nat}, (arena.map Prod.fst).Nodup →
    s.Nodup → (∀ k ∈ s, k ∈ arena.map Prod.fst) →
    (arena.filter (fun p => !decide (p.1 ∈ s))).length + s.length =
      arena.length := by
  intro arena
  induction arena with
  | nil =>
    intro s _ _ hsub
    have hs : s = [] := List.eq_nil_iff_forall_not_mem.mpr
      (fun a ha => by simpa using hsub a ha)
    subst hs
    simp
  | cons p rest ih =>
    intro s hkeys hnd hsub
    rw [List.map_cons, List.nodup_cons] at hkeys
    obtain ⟨hp1, hkr⟩ := hkeys
    by_cases hps : p.1 ∈ s
    · rw [List.filter_cons_of_neg (by simp [hps])]
      have heq : rest.filter (fun q => !decide (q.1 ∈ s)) =
          rest.filter (fun q => !decide (q.1 ∈ s.erase p.1)) := by
        apply List.filter_congr
        intro a ha
        have hak : a.1 ∈ rest.map Prod.fst := List.mem_map_of_mem _ ha
        have hane : a.1 ≠ p.1 := fun hcontra => hp1 (by rw [← hcontra]; exact hak)
        by_cases ham : a.1 ∈ s
        · simp [ham, (hnd.mem_erase_iff).mpr ⟨hane, ham⟩]
        · have hnotin : a.1 ∉ s.erase p.1 :=
            fun hc => ham ((hnd.mem_erase_iff).mp hc).2
          simp [ham, hnotin]
      rw [heq]
      have ihr := ih hkr (hnd.erase p.1) (fun k hk => by
        have hks := (hnd.mem_erase_iff).mp hk
        have := hsub k hks.2
        rw [List.map_cons] at this
        rcases List.mem_cons.mp this with hkp | hkr'
        · exact absurd hkp hks.1
        · exact hkr')
      have hlen : (s.erase p.1).length = s.length - 1 :=
        List.length_erase_of_mem hps
      have hpos : 0 < s.length := List.length_pos_of_mem hps
      simp only [List.length_cons]
      omega
    · rw [List.filter_cons_of_pos (by simp [hps])]
      have ihr := ih hkr hnd (fun k hk => by
        have := hsub k hk
        rw [List.map_cons] at this
        rcases List.mem_cons.mp this with hkp | hkr'
        · exact absurd (hkp ▸ hk) hps
        · exact hkr')
      simp only [List.length_cons]
      omega

/-- C2: in a tree-shaped arena, removing a non-root node whose subtree
handle set is `s` (as computed by `collectFuel`, duplicate-free and not
containing the root handle 0) removes exactly the nodes of `s` — every
transitively reachable descendant and nothing else — so the arena length
after removal plus the subtree size equals the length before. -/
theorem c2_remove_cascades_no_leak (arena : Arena) (idx : Nat)
    (s : List Nat) (hkeys : (arena.map Prod.fst).Nodup)
    (hc : collectFuel (removeFuel arena) arena idx = some s)
    (hnd : s.Nodup) (h0 : 0 ∉ s) :
    removeNode arena idx =
      some (arena.filter (fun p => !decide (p.1 ∈ s))) ∧
    (arena.filter (fun p => !decide (p.1 ∈ s))).length + s.length =
      arena.length := by
  constructor
  · exact (removeNodeFuel_collect (removeFuel arena)).1 arena arena idx s
      hc hnd h0 (fun k _ => rfl)
  · apply length_filter_not_mem_add hkeys hnd
    intro k hk
    obtain ⟨n, hn⟩ := (collectFuel_lookup (removeFuel arena)).1 arena idx s
      hc k hk
    exact lookupArena_some_mem_keys hn

theorem c2_remove_cascades_no_leak_witness :
    removeNode
      [(0, NBTNode.Compound [([97], 1)]), (1, NBTNode.List 1 [2, 3]),
        (2, NBTNode.Byte 5), (3, NBTNode.Byte 7)] 1 =
      some [(0, NBTNode.Compound [([97], 1)])] ∧
    (1 : Nat) + 3 = 4 := by
  have h := c2_remove_cascades_no_leak
    [(0, NBTNode.Compound [([97], 1)]), (1, NBTNode.List 1 [2, 3]),
      (2, NBTNode.Byte 5), (3, NBTNode.Byte 7)] 1 [1, 2, 3]
    (by decide) (by decide) (by decide) (by decide)
  obtain ⟨h1, h2⟩ := h
  refine ⟨?_, by decide⟩
  rw [h1]
  decide

theorem removeNodeFuel_lookup_zero :
    ∀ fuel : Nat,
    (∀ (arena : Arena) (idx : Nat) (arena' : Arena),
      removeNodeFuel fuel arena idx = some arena' →
      lookupArena arena' 0 = lookupArena arena 0) ∧
    (∀ (arena : Arena) (cs : List Nat) (arena' : Arena),
      removeChildrenFuel fuel arena cs = some arena' →
      lookupArena arena' 0 = lookupArena arena 0) := by
  intro fuel
  induction fuel with
  | zero =>
    constructor
    · intro arena idx arena' h
      simp [removeNodeFuel] at h
    · intro arena cs arena' h
      cases cs with
      | nil =>
        have ha : arena = arena' := by simpa [removeChildrenFuel] using h
        rw [ha]
      | cons c cs' => simp [removeChildrenFuel] at h
  | succ fuel ih =>
    obtain ⟨ihP, ihQ⟩ := ih
    constructor
    · intro arena idx arena' h
      simp only [removeNodeFuel] at h
      by_cases hidx : idx = 0
      · rw [if_pos hidx] at h; simp at h
      · rw [if_neg hidx] at h
        cases hl : lookupArena arena idx with
        | none => rw [hl] at h; simp at h
        | some node =>
          rw [hl] at h
          dsimp only at h
          cases hch : childrenOf node with
          | none =>
            rw [hch] at h
            dsimp only at h
            have ha : eraseArena arena idx = arena' := by simpa using h
            rw [← ha]
            exact lookupArena_erase_ne (fun hc => hidx hc.symm)
          | some cs =>
            rw [hch] at h
            dsimp only at h
            rw [ihQ (eraseArena arena idx) cs arena' h]
            exact lookupArena_erase_ne (fun hc => hidx hc.symm)
    · intro arena cs arena' h
      cases cs with
      | nil =>
        have ha : arena = arena' := by simpa [removeChildrenFuel] using h
        rw [ha]
      | cons c cs' =>
        simp only [removeChildrenFuel] at h
        cases h1 : removeNodeFuel fuel arena c with
        | none => rw [h1] at h; simp at h
        | some arena1 =>
          rw [h1] at h
          dsimp only at h
          rw [ihQ arena1 cs' arena' h, ihP arena c arena1 h1]

/-- C7: node removal applied to the root handle 0 is rejected
(`remove_node` panics before touching the arena), and after any sequence
of successful node removals slot 0 of the arena is unchanged — the root
node is still present. -/
theorem c7_root_never_removable (arena arena' : Arena) (ops : List Nat) :
    removeNode arena 0 = none ∧
    (ops.foldlM removeNode arena = some arena' →
      lookupArena arena' 0 = lookupArena arena 0) := by
  constructor
  · show removeNodeFuel (removeFuel arena) arena 0 = none
    have hf : removeFuel arena = (2 * arena.length + 1) + 1 := rfl
    rw [hf]
    simp [removeNodeFuel]
  · have hfold : ∀ (l : List Nat) (a a' : Arena),
        l.foldlM removeNode a = some a' →
        lookupArena a' 0 = lookupArena a 0 := by
      intro l
      induction l with
      | nil =>
        intro a a' h
        have ha : a = a' := by simpa using h
        rw [ha]
      | cons op rest ih =>
        intro a a' h
        rw [List.foldlM_cons] at h
        cases h1 : removeNode a op with
        | none => rw [h1] at h; simp at h
        | some a1 =>
          rw [h1] at h
          simp only [Option.bind_eq_bind, Option.some_bind] at h
          rw [ih a1 a' h]
          exact (removeNodeFuel_lookup_zero (removeFuel a)).1 a op a1 h1
    exact hfold ops arena arena'

theorem c7_root_never_removable_witness :
    removeNode [(0, NBTNode.Compound [([97], 1)]), (1, NBTNode.Byte 5)] 0 =
      none ∧
    lookupArena [(0, NBTNode.Compound [([97], 1)])] 0 =
      lookupArena [(0, NBTNode.Compound [([97], 1)]), (1, NBTNode.Byte 5)]
        0 := by
  have h := c7_root_never_removable
    [(0, NBTNode.Compound [([97], 1)]), (1, NBTNode.Byte 5)]
    [(0, NBTNode.Compound [([97], 1)])] [1]
  exact ⟨h.1, h.2 (by decide)⟩

/-- Replace the node stored at slot `cidx` of the arena. -/
def updateArena (arena : Arena) (cidx : Nat) (node : NBTNode) : Arena :=
  arena.map (fun p => if p.1 == cidx then (p.1, node) else p)

/-- Modelled from the spec: the keyed insert performed through a mutable
compound reference (`insert_node` lives in the absent `reference`
module) — the child handle is recorded in the compound node's entry
vector via `NBTCompound::insert`; no other arena slot is touched. -/
def insertIntoCompoundNode (arena : Arena) (cidx : Nat) (key : Key)
    (handle : Nat) : Option Arena :=
  match lookupArena arena cidx with
  | some (NBTNode.Compound entries) =>
    some (updateArena arena cidx
      (NBTNode.Compound (NBTCompound.insert entries key handle)))
  | _ => none

theorem lookupArena_update_ne {arena : Arena} {cidx j : Nat}
    {node : NBTNode} (h : j ≠ cidx) :
    lookupArena (updateArena arena cidx node) j = lookupArena arena j := by
  induction arena with
  | nil => rfl
  | cons p rest ih =>
    unfold updateArena at ih ⊢
    rw [List.map_cons]
    unfold lookupArena at ih ⊢
    rw [List.find?_cons, List.find?_cons]
    have hkey : (if p.1 == cidx then (p.1, node) else p).1 = p.1 := by
      by_cases hc : (p.1 == cidx) = true <;> simp [hc]
    rw [hkey]
    by_cases hpj : (p.1 == j) = true
    · have hp1 : p.1 = j := by simpa using hpj
      have hnc : (p.1 == cidx) = false := by
        rw [beq_eq_false_iff_ne, hp1]
        exact h
      simp [hpj, hnc]
    · rw [eq_false_of_ne_true hpj]
      exact ih

theorem lookupArena_update_self {arena : Arena} {cidx : Nat}
    {node old : NBTNode} (h : lookupArena arena cidx = some old) :
    lookupArena (updateArena arena cidx node) cidx = some node := by
  induction arena with
  | nil => simp [lookupArena] at h
  | cons p rest ih =>
    unfold updateArena at ih ⊢
    rw [List.map_cons]
    unfold lookupArena at h ih ⊢
    rw [List.find?_cons] at h
    rw [List.find?_cons]
    have hkey : (if p.1 == cidx then (p.1, node) else p).1 = p.1 := by
      by_cases hc : (p.1 == cidx) = true <;> simp [hc]
    rw [hkey]
    by_cases hpc : (p.1 == cidx) = true
    · simp [hpc]
    · rw [eq_false_of_ne_true hpc] at h ⊢
      exact ih h

theorem sorted_mem_binarySearch {entries : List (Key × Nat)} {K : Key}
    {old : Nat} (hs : SortedKeys entries) (hmem : (K, old) ∈ entries) :
    ∃ i, NBTCompound.binarySearch entries K = .ok i ∧
      entries.get? i = some (K, old) := by
  have hbs := binarySearch_spec entries K hs
  rw [List.mem_iff_get?] at hmem
  obtain ⟨j, hj⟩ := hmem
  cases hcase : NBTCompound.binarySearch entries K with
  | ok i =>
    rw [hcase] at hbs
    obtain ⟨e, hget, hek⟩ := hbs
    refine ⟨i, rfl, ?_⟩
    rcases Nat.lt_trichotomy i j with hij | hij | hij
    · have := sortedKeys_get hs hget hj hij
      rw [hek] at this
      rw [keyCompare_self] at this
      simp at this
    · rw [← hij] at hj
      exact hj
    · have := sortedKeys_get hs hj hget hij
      rw [hek] at this
      rw [keyCompare_self] at this
      simp at this
  | error i =>
    rw [hcase] at hbs
    have := bsok_error_not_mem hbs (K, old) (by
      rw [List.mem_iff_get?]; exact ⟨j, hj⟩)
    simp at this

/-- C6: inserting into a compound node under a key that already has an
entry replaces only that entry's handle; the compound node keeps its other
entries unchanged and every other arena slot — in particular the old
handle's node — is untouched. -/
theorem c6_insert_existing_key_is_frame_local (arena : Arena) (cidx : Nat)
    (entries : List (Key × Nat)) (K : Key) (old new : Nat)
    (hs : SortedKeys entries)
    (hlk : lookupArena arena cidx = some (NBTNode.Compound entries))
    (hmem : (K, old) ∈ entries) :
    ∃ arena' i,
      insertIntoCompoundNode arena cidx K new = some arena' ∧
      entries.get? i = some (K, old) ∧
      lookupArena arena' cidx =
        some (NBTNode.Compound (entries.set i (K, new))) ∧
      (∀ j, j ≠ cidx → lookupArena arena' j = lookupArena arena j) := by
  obtain ⟨i, hbs, hget⟩ := sorted_mem_binarySearch hs hmem
  have hins : NBTCompound.insert entries K new = entries.set i (K, new) := by
    unfold NBTCompound.insert
    rw [hbs]
    dsimp only
    rw [hget]
  refine ⟨updateArena arena cidx
      (NBTNode.Compound (NBTCompound.insert entries K new)), i, ?_, hget,
      ?_, ?_⟩
  · unfold insertIntoCompoundNode
    rw [hlk]
  · rw [lookupArena_update_self hlk, hins]
  · intro j hj
    exact lookupArena_update_ne hj

theorem c6_insert_existing_key_is_frame_local_witness :
    ∃ arena' i,
      insertIntoCompoundNode
        [(0, NBTNode.Compound [([97], 1)]), (1, NBTNode.Byte 5)] 0 [97] 2 =
        some arena' ∧
      ([([97], 1)] : List (Key × Nat)).get? i = some ([97], 1) ∧
      lookupArena arena' 0 =
        some (NBTNode.Compound (([([97], 1)] : List (Key × Nat)).set i
          ([97], 2))) ∧
      (∀ j, j ≠ 0 → lookupArena arena' j =
        lookupArena [(0, NBTNode.Compound [([97], 1)]),
          (1, NBTNode.Byte 5)] j) :=
  c6_insert_existing_key_is_frame_local
    [(0, NBTNode.Compound [([97], 1)]), (1, NBTNode.Byte 5)] 0
    [([97], 1)] [97] 1 2 (by unfold SortedKeys; decide) (by decide)
    (by decide)

/-- The tree header from `lib.rs`: named root plus the node arena. -/
structure NBT where
  root_name : List Nat
  root_index : Nat
  nodes : Arena

mutual
/-- Modelled from the spec: §4.4 structural equality of two read-only
references (`reference.rs` is absent) — equal variant tags, equal scalar
payloads, lists equal elementwise in order (with equal recorded element
type), compounds equal entrywise over their sorted entry vectors (same
key set, structurally equal children).  Fuel bounds recursion depth; the
entry point supplies more than both arenas' combined size. -/
def structEqFuel : Nat → Arena → Nat → Arena → Nat → Bool
  | 0, _, _, _, _ => false
  | fuel + 1, a1, i1, a2, i2 =>
    match lookupArena a1 i1, lookupArena a2 i2 with
    | some (NBTNode.Byte v1), some (NBTNode.Byte v2) => v1 == v2
    | some (NBTNode.Short v1), some (NBTNode.Short v2) => v1 == v2
    | some (NBTNode.Int v1), some (NBTNode.Int v2) => v1 == v2
    | some (NBTNode.Long v1), some (NBTNode.Long v2) => v1 == v2
    | some (NBTNode.Float b1), some (NBTNode.Float b2) => b1 == b2
    | some (NBTNode.Double b1), some (NBTNode.Double b2) => b1 == b2
    | some (NBTNode.ByteArray v1), some (NBTNode.ByteArray v2) => v1 == v2
    | some (NBTNode.String v1), some (NBTNode.String v2) => v1 == v2
    | some (NBTNode.List t1 cs1), some (NBTNode.List t2 cs2) =>
      t1 == t2 && structEqChildren fuel a1 cs1 a2 cs2
    | some (NBTNode.Compound e1), some (NBTNode.Compound e2) =>
      structEqEntries fuel a1 e1 a2 e2
    | some (NBTNode.IntArray v1), some (NBTNode.IntArray v2) => v1 == v2
    | some (NBTNode.LongArray v1), some (NBTNode.LongArray v2) => v1 == v2
    | _, _ => false
def structEqChildren : Nat → Arena → List Nat → Arena → List Nat → Bool
  | _, _, [], _, [] => true
  | fuel + 1, a1, c1 :: cs1, a2, c2 :: cs2 =>
    structEqFuel fuel a1 c1 a2 c2 && structEqChildren fuel a1 cs1 a2 cs2
  | _, _, _, _, _ => false
def structEqEntries :
    Nat → Arena → List (Key × Nat) → Arena → List (Key × Nat) → Bool
  | _, _, [], _, [] => true
  | fuel + 1, a1, (k1, c1) :: e1, a2, (k2, c2) :: e2 =>
    k1 == k2 && structEqFuel fuel a1 c1 a2 c2 &&
      structEqEntries fuel a1 e1 a2 e2
  | _, _, _, _, _ => false
end

/-- `impl PartialEq for NBT` from `lib.rs`: the two trees' root references
are compared structurally (`self.as_reference() == other.as_reference()`);
`root_name` is not consulted. -/
def nbtEq (a b : NBT) : Bool :=
  structEqFuel (a.nodes.length + b.nodes.length + 1) a.nodes a.root_index
    b.nodes b.root_index

/-- C10: whole-tree `==` never inspects the root name — for every pair of
trees whose root nodes are structurally equal, `==` holds whatever the two
`root_name` fields are, and `==` is invariant under changing either
tree's `root_name`. -/
theorem c10_eq_ignores_root_name (a b : NBT) (n1 n2 : List Nat)
    (h : structEqFuel (a.nodes.length + b.nodes.length + 1) a.nodes
      a.root_index b.nodes b.root_index = true) :
    nbtEq { a with root_name := n1 } { b with root_name := n2 } = true ∧
    nbtEq { a with root_name := n1 } { b with root_name := n2 } =
      nbtEq a b :=
  ⟨h, rfl⟩

theorem c10_eq_ignores_root_name_witness :
    nbtEq ⟨[65], 0, [(0, NBTNode.Compound [([97], 1)]),
        (1, NBTNode.Byte 5)]⟩
      ⟨[66], 0, [(0, NBTNode.Compound [([97], 2)]),
        (2, NBTNode.Byte 5)]⟩ = true ∧
    nbtEq ⟨[65], 0, [(0, NBTNode.Compound [([97], 1)]),
        (1, NBTNode.Byte 5)]⟩
      ⟨[66], 0, [(0, NBTNode.Compound [([97], 2)]),
        (2, NBTNode.Byte 5)]⟩ =
      nbtEq ⟨[67], 0, [(0, NBTNode.Compound [([97], 1)]),
        (1, NBTNode.Byte 5)]⟩
      ⟨[67], 0, [(0, NBTNode.Compound [([97], 2)]),
        (2, NBTNode.Byte 5)]⟩ :=
  c10_eq_ignores_root_name
    ⟨[67], 0, [(0, NBTNode.Compound [([97], 1)]), (1, NBTNode.Byte 5)]⟩
    ⟨[67], 0, [(0, NBTNode.Compound [([97], 2)]), (2, NBTNode.Byte 5)]⟩
    [65] [66] (by decide)

/-- Modelled from the spec: the decode error taxonomy of §7
(`decode.rs` is absent). -/
inductive NBTError where
  | invalidTag (tag : Nat)
  | truncated
  | invalidLength
  | invalidUtf8
  deriving DecidableEq

/-- Modelled from the spec: the value tree the binary codec produces and
consumes (§3, §4.5).  Scalar payloads are the raw big-endian bit patterns
(a `Nat` below the width bound); strings are their UTF-8 bytes. -/
inductive NBTValue where
  | byte (v : Nat)
  | short (v : Nat)
  | int (v : Nat)
  | long (v : Nat)
  | float (v : Nat)
  | double (v : Nat)
  | byteArray (v : List Nat)
  | string (v : List Nat)
  | list (elemType : Nat) (items : List NBTValue)
  | compound (entries : List (Key × NBTValue))
  | intArray (v : List Nat)
  | longArray (v : List Nat)

/-- One-byte wire tag of a value (1–12; 0 is the end sentinel). -/
def tagOf : NBTValue → Nat
  | .byte _ => 1
  | .short _ => 2
  | .int _ => 3
  | .long _ => 4
  | .float _ => 5
  | .double _ => 6
  | .byteArray _ => 7
  | .string _ => 8
  | .list _ _ => 9
  | .compound _ => 10
  | .intArray _ => 11
  | .longArray _ => 12

/-- Big-endian bytes of `v` over `w` bytes (`v < 256 ^ w`). -/
def natToBytes : Nat → Nat → List Nat
  | 0, _ => []
  | w + 1, v => v / 256 ^ w :: natToBytes w (v % 256 ^ w)

/-- Read `w` bytes big-endian. -/
def readBytesBE : Nat → List Nat → Except NBTError (Nat × List Nat)
  | 0, input => .ok (0, input)
  | w + 1, input =>
    match input with
    | [] => .error .truncated
    | b :: rest =>
      match readBytesBE w rest with
      | .ok (v, rest') => .ok (b * 256 ^ w + v, rest')
      | .error e => .error e

/-- Read `n` raw bytes. -/
def readRaw : Nat → List Nat → Except NBTError (List Nat × List Nat)
  | 0, input => .ok ([], input)
  | n + 1, input =>
    match input with
    | [] => .error .truncated
    | b :: rest =>
      match readRaw n rest with
      | .ok (s, rest') => .ok (b :: s, rest')
      | .error e => .error e

/-- Read `n` big-endian values of `w` bytes each. -/
def readMulti : Nat → Nat → List Nat → Except NBTError (List Nat × List Nat)
  | _, 0, input => .ok ([], input)
  | w, n + 1, input =>
    match readBytesBE w input with
    | .ok (v, rest) =>
      match readMulti w n rest with
      | .ok (vs, rest') => .ok (v :: vs, rest')
      | .error e => .error e
    | .error e => .error e

/-- Read a signed 32-bit big-endian length; a negative value (top bit
set) is an `InvalidLength` error. -/
def readLen32 (input : List Nat) : Except NBTError (Nat × List Nat) :=
  match readBytesBE 4 input with
  | .ok (v, rest) =>
    if v < 2 ^ 31 then .ok (v, rest) else .error .invalidLength
  | .error e => .error e

/-- Modelled from the spec: UTF-8 validity of a byte sequence, as
`String::from_utf8` checks it (shortest-form encodings, no surrogates,
max U+10FFFF). -/
def isValidUtf8 : List Nat → Bool
  | [] => true
  | b :: rest =>
    if b ≤ 0x7F then isValidUtf8 rest
    else if 0xC2 ≤ b ∧ b ≤ 0xDF then
      match rest with
      | b1 :: r => decide (0x80 ≤ b1 ∧ b1 ≤ 0xBF) && isValidUtf8 r
      | [] => false
    else if b = 0xE0 then
      match rest with
      | b1 :: b2 :: r =>
        decide (0xA0 ≤ b1 ∧ b1 ≤ 0xBF) && decide (0x80 ≤ b2 ∧ b2 ≤ 0xBF) &&
          isValidUtf8 r
      | _ => false
    else if (0xE1 ≤ b ∧ b ≤ 0xEC) ∨ (0xEE ≤ b ∧ b ≤ 0xEF) then
      match rest with
      | b1 :: b2 :: r =>
        decide (0x80 ≤ b1 ∧ b1 ≤ 0xBF) && decide (0x80 ≤ b2 ∧ b2 ≤ 0xBF) &&
          isValidUtf8 r
      | _ => false
    else if b = 0xED then
      match rest with
      | b1 :: b2 :: r =>
        decide (0x80 ≤ b1 ∧ b1 ≤ 0x9F) && decide (0x80 ≤ b2 ∧ b2 ≤ 0xBF) &&
          isValidUtf8 r
      | _ => false
    else if b = 0xF0 then
      match rest with
      | b1 :: b2 :: b3 :: r =>
        decide (0x90 ≤ b1 ∧ b1 ≤ 0xBF) && decide (0x80 ≤ b2 ∧ b2 ≤ 0xBF) &&
          decide (0x80 ≤ b3 ∧ b3 ≤ 0xBF) && isValidUtf8 r
      | _ => false
    else if 0xF1 ≤ b ∧ b ≤ 0xF3 then
      match rest with
      | b1 :: b2 :: b3 :: r =>
        decide (0x80 ≤ b1 ∧ b1 ≤ 0xBF) && decide (0x80 ≤ b2 ∧ b2 ≤ 0xBF) &&
          decide (0x80 ≤ b3 ∧ b3 ≤ 0xBF) && isValidUtf8 r
      | _ => false
    else if b = 0xF4 then
      match rest with
      | b1 :: b2 :: b3 :: r =>
        decide (0x80 ≤ b1 ∧ b1 ≤ 0x8F) && decide (0x80 ≤ b2 ∧ b2 ≤ 0xBF) &&
          decide (0x80 ≤ b3 ∧ b3 ≤ 0xBF) && isValidUtf8 r
      | _ => false
    else false

mutual
/-- Modelled from the spec: the binary encoder (§4.5, §6) — mirror of
decode, writing compound entries in the Compound Index's sorted order. -/
def encodePayload : NBTValue → List Nat
  | .byte v => natToBytes 1 v
  | .short v => natToBytes 2 v
  | .int v => natToBytes 4 v
  | .long v => natToBytes 8 v
  | .float v => natToBytes 4 v
  | .double v => natToBytes 8 v
  | .byteArray v => natToBytes 4 v.length ++ v
  | .string s => natToBytes 2 s.length ++ s
  | .list t items => t :: (natToBytes 4 items.length ++ encodeItems items)
  | .compound entries => encodeEntries entries ++ [0]
  | .intArray v => natToBytes 4 v.length ++ (v.map (natToBytes 4)).join
  | .longArray v => natToBytes 4 v.length ++ (v.map (natToBytes 8)).join
def encodeItems : List NBTValue → List Nat
  | [] => []
  | v :: rest => encodePayload v ++ encodeItems rest
def encodeEntries : List (Key × NBTValue) → List Nat
  | [] => []
  | (k, v) :: rest =>
    tagOf v :: (natToBytes 2 k.length ++ k ++ encodePayload v) ++
      encodeEntries rest
end

/-- Adjacent-pairs check of strictly increasing keys (executable form of
the sorted invariant). -/
def sortedAdj : List (Key × α) → Bool
  | [] => true
  | [_] => true
  | e :: f :: rest =>
    decide (keyCompare e.1 f.1 = .lt) && sortedAdj (f :: rest)

mutual
/-- Modelled from the spec: a conforming (encodable) value — scalar bit
patterns within width, array/list/string lengths within their signed or
unsigned prefix ranges, strings valid UTF-8, lists homogeneous with a
recorded element tag 0–12, compounds sorted with valid key strings. -/
def validV : NBTValue → Bool
  | .byte v => decide (v < 2 ^ 8)
  | .short v => decide (v < 2 ^ 16)
  | .int v => decide (v < 2 ^ 32)
  | .long v => decide (v < 2 ^ 64)
  | .float v => decide (v < 2 ^ 32)
  | .double v => decide (v < 2 ^ 64)
  | .byteArray v =>
    decide (v.length < 2 ^ 31) && v.all (fun b => decide (b < 2 ^ 8))
  | .string s => decide (s.length < 2 ^ 16) && isValidUtf8 s
  | .list t items =>
    decide (t ≤ 12) && decide (items.length < 2 ^ 31) && validItems t items
  | .compound entries => sortedAdj entries && validEntries entries
  | .intArray v =>
    decide (v.length < 2 ^ 31) && v.all (fun b => decide (b < 2 ^ 32))
  | .longArray v =>
    decide (v.length < 2 ^ 31) && v.all (fun b => decide (b < 2 ^ 64))
def validItems : Nat → List NBTValue → Bool
  | _, [] => true
  | t, v :: rest => decide (tagOf v = t) && validV v && validItems t rest
def validEntries : List (Key × NBTValue) → Bool
  | [] => true
  | (k, v) :: rest =>
    decide (k.length < 2 ^ 16) && isValidUtf8 k && validV v &&
      validEntries rest
end

mutual
/-- Modelled from the spec: the recursive binary decoder (§4.5, §6).
Dispatches on the already-read tag byte; `fuel` bounds recursion and the
entry point supplies more than the input length, which the decoder never
exhausts on its shrinking input. -/
def decodePayload : Nat → Nat → List Nat →
    Except NBTError (NBTValue × List Nat)
  | 0, _, _ => .error .truncated
  | fuel + 1, tag, input =>
    if tag = 1 then
      match readBytesBE 1 input with
      | .ok (v, rest) => .ok (.byte v, rest)
      | .error e => .error e
    else if tag = 2 then
      match readBytesBE 2 input with
      | .ok (v, rest) => .ok (.short v, rest)
      | .error e => .error e
    else if tag = 3 then
      match readBytesBE 4 input with
      | .ok (v, rest) => .ok (.int v, rest)
      | .error e => .error e
    else if tag = 4 then
      match readBytesBE 8 input with
      | .ok (v, rest) => .ok (.long v, rest)
      | .error e => .error e
    else if tag = 5 then
      match readBytesBE 4 input with
      | .ok (v, rest) => .ok (.float v, rest)
      | .error e => .error e
    else if tag = 6 then
      match readBytesBE 8 input with
      | .ok (v, rest) => .ok (.double v, rest)
      | .error e => .error e
    else if tag = 7 then
      match readLen32 input with
      | .ok (n, rest) =>
        match readRaw n rest with
        | .ok (v, rest') => .ok (.byteArray v, rest')
        | .error e => .error e
      | .error e => .error e
    else if tag = 8 then
      match readBytesBE 2 input with
      | .ok (n, rest) =>
        match readRaw n rest with
        | .ok (s, rest') =>
          if isValidUtf8 s then .ok (.string s, rest')
          else .error .invalidUtf8
        | .error e => .error e
      | .error e => .error e
    else if tag = 9 then
      match input with
      | [] => .error .truncated
      | et :: rest =>
        if et ≤ 12 then
          match readLen32 rest with
          | .ok (n, rest') =>
            match decodeItems fuel et n rest' with
            | .ok (items, rest'') => .ok (.list et items, rest'')
            | .error e => .error e
          | .error e => .error e
        else .error (.invalidTag et)
    else if tag = 10 then
      match decodeEntries fuel [] input with
      | .ok (entries, rest) => .ok (.compound entries, rest)
      | .error e => .error e
    else if tag = 11 then
      match readLen32 input with
      | .ok (n, rest) =>
        match readMulti 4 n rest with
        | .ok (vs, rest') => .ok (.intArray vs, rest')
        | .error e => .error e
      | .error e => .error e
    else if tag = 12 then
      match readLen32 input with
      | .ok (n, rest) =>
        match readMulti 8 n rest with
        | .ok (vs, rest') => .ok (.longArray vs, rest')
        | .error e => .error e
      | .error e => .error e
    else .error (.invalidTag tag)
def decodeItems : Nat → Nat → Nat → List Nat →
    Except NBTError (List NBTValue × List Nat)
  | _, _, 0, input => .ok ([], input)
  | 0, _, _ + 1, _ => .error .truncated
  | fuel + 1, et, n + 1, input =>
    match decodePayload fuel et input with
    | .ok (v, rest) =>
      match decodeItems fuel et n rest with
      | .ok (items, rest') => .ok (v :: items, rest')
      | .error e => .error e
    | .error e => .error e
def decodeEntries : Nat → List (Key × NBTValue) → List Nat →
    Except NBTError (List (Key × NBTValue) × List Nat)
  | _, _, [] => .error .truncated
  | fuel, acc, tag :: rest =>
    if tag = 0 then .ok (acc, rest)
    else
      match fuel with
      | 0 => .error .truncated
      | fuel + 1 =>
        match readBytesBE 2 rest with
        | .ok (n, rest') =>
          match readRaw n rest' with
          | .ok (k, rest'') =>
            if isValidUtf8 k then
              match decodePayload fuel tag rest'' with
              | .ok (v, rest3) =>
                decodeEntries fuel (NBTCompound.insert acc k v) rest3
              | .error e => .error e
            else .error .invalidUtf8
          | .error e => .error e
        | .error e => .error e
end

/-- Modelled from the spec: whole-stream encode — the root compound's own
tag byte, the length-prefixed root name, then the root's payload. -/
def encodeTop (name : Key) (v : NBTValue) : List Nat :=
  tagOf v :: (natToBytes 2 name.length ++ name ++ encodePayload v)

/-- Modelled from the spec: whole-stream decode — a compound tag byte,
the length-prefixed root name, then the root compound's payload. -/
def decodeTop (input : List Nat) : Except NBTError (Key × NBTValue) :=
  match input with
  | [] => .error .truncated
  | tag :: rest =>
    if tag = 10 then
      match readBytesBE 2 rest with
      | .ok (n, rest') =>
        match readRaw n rest' with
        | .ok (name, rest'') =>
          if isValidUtf8 name then
            match decodePayload (rest''.length + 1) 10 rest'' with
            | .ok (v, _) => .ok (name, v)
            | .error e => .error e
          else .error .invalidUtf8
        | .error e => .error e
      | .error e => .error e
    else .error (.invalidTag tag)

/-- C5: each of the four malformed-input classes produces its own
distinct structured error — an unrecognized type tag yields `InvalidTag`,
missing bytes yield `Truncated`, a negative declared array length yields
`InvalidLength`, and a non-UTF-8 string yields `InvalidUtf8`; the decoder
returns only the error, never a partial tree. -/
theorem c5_decode_error_classification :
    decodeTop [10, 0, 0, 13, 0, 0, 0] = .error (.invalidTag 13) ∧
    decodeTop [10, 0, 0, 1, 0, 1, 97] = .error .truncated ∧
    decodeTop [10, 0, 0, 7, 0, 1, 97, 255, 255, 255, 255] =
      .error .invalidLength ∧
    decodeTop [10, 0, 0, 8, 0, 1, 97, 0, 1, 255] = .error .invalidUtf8 :=
  ⟨rfl, rfl, rfl, rfl⟩

theorem natToBytes_length : ∀ (w v : Nat), (natToBytes w v).length = w := by
  intro w
  induction w with
  | zero => intro v; rfl
  | succ w ih => intro v; simp [natToBytes, ih]

theorem readBytesBE_natToBytes :
    ∀ {w v : Nat} (rest : List Nat), v < 256 ^ w →
    readBytesBE w (natToBytes w v ++ rest) = .ok (v, rest) := by
  intro w
  induction w with
  | zero =>
    intro v rest hv
    have hv0 : v = 0 := by simpa using hv
    subst hv0
    rfl
  | succ w ih =>
    intro v rest hv
    have hmod : v % 256 ^ w < 256 ^ w :=
      Nat.mod_lt _ (Nat.pos_pow_of_pos w (by omega))
    simp only [natToBytes, List.cons_append, readBytesBE]
    rw [ih rest hmod]
    dsimp only
    have hdm : v / 256 ^ w * 256 ^ w + v % 256 ^ w = v := by
      rw [Nat.mul_comm]
      exact Nat.div_add_mod v (256 ^ w)
    rw [hdm]

theorem readRaw_append :
    ∀ (s rest : List Nat), readRaw s.length (s ++ rest) = .ok (s, rest) := by
  intro s
  induction s with
  | nil => intro rest; rfl
  | cons b rest' ih =>
    intro rest
    simp only [List.length_cons, List.cons_append, readRaw]
    rw [ih rest]

theorem readMulti_join {w : Nat} :
    ∀ (vs : List Nat) (rest : List Nat), (∀ x ∈ vs, x < 256 ^ w) →
    readMulti w vs.length ((vs.map (natToBytes w)).join ++ rest) =
      .ok (vs, rest) := by
  intro vs
  induction vs with
  | nil => intro rest _; rfl
  | cons v vs' ih =>
    intro rest hb
    simp only [List.length_cons, List.map_cons, List.join_cons,
      List.append_assoc, readMulti]
    rw [readBytesBE_natToBytes _ (hb v (by simp))]
    dsimp only
    rw [ih rest (fun x hx => hb x (by simp [hx]))]

theorem readLen32_natToBytes {n : Nat} (rest : List Nat) (h : n < 2 ^ 31) :
    readLen32 (natToBytes 4 n ++ rest) = .ok (n, rest) := by
  unfold readLen32
  rw [readBytesBE_natToBytes rest (by
    have : (2 : Nat) ^ 31 < 256 ^ 4 := by norm_num
    omega)]
  dsimp only
  rw [if_pos h]

theorem encodePayload_length_pos (v : NBTValue) :
    1 ≤ (encodePayload v).length := by
  cases v <;> simp [encodePayload, natToBytes]

theorem sortedAdj_sortedKeys :
    ∀ {entries : List (Key × α)}, sortedAdj entries = true →
    SortedKeys entries := by
  intro entries
  induction entries with
  | nil => intro; simp [SortedKeys]
  | cons e rest ih =>
    intro h
    cases rest with
    | nil => simp [SortedKeys]
    | cons f rest' =>
      simp only [sortedAdj, Bool.and_eq_true, decide_eq_true_eq] at h
      obtain ⟨hef, hrest⟩ := h
      have hr := ih hrest
      rw [SortedKeys, List.pairwise_cons]
      refine ⟨fun g hg => ?_, hr⟩
      rcases List.mem_cons.mp hg with hgf | hgr
      · rw [hgf]; exact hef
      · have := (List.pairwise_cons.mp hr).1 g hgr
        exact keyCompare_lt_trans hef this

theorem insert_append_of_all_lt {acc : List (Key × α)} {k : Key} {v : α}
    (hs : SortedKeys acc) (hlt : ∀ e ∈ acc, keyCompare e.1 k = .lt) :
    NBTCompound.insert acc k v = acc ++ [(k, v)] := by
  rw [insert_eq_insertLinear hs]
  clear hs
  induction acc with
  | nil => rfl
  | cons e rest ih =>
    simp only [insertLinear, hlt e (by simp), List.cons_append]
    rw [ih (fun f hf => hlt f (by simp [hf]))]

theorem tagOf_ne_zero (v : NBTValue) : tagOf v ≠ 0 := by
  cases v <;> simp [tagOf]

theorem decodeItems_zero (fuel t : Nat) (input : List Nat) :
    decodeItems fuel t 0 input = .ok ([], input) := by
  cases fuel <;> rfl

theorem decodeItems_succ (fuel t n : Nat) (input : List Nat) :
    decodeItems (fuel + 1) t (n + 1) input =
      match decodePayload fuel t input with
      | .ok (v, rest) =>
        match decodeItems fuel t n rest with
        | .ok (items, rest') => .ok (v :: items, rest')
        | .error e => .error e
      | .error e => .error e := rfl

theorem decodeEntries_term (fuel : Nat) (acc : List (Key × NBTValue))
    (rest : List Nat) :
    decodeEntries fuel acc (0 :: rest) = .ok (acc, rest) := by
  cases fuel <;> rfl

theorem decodeEntries_cons_ne {tag : Nat} (h : tag ≠ 0) (fuel : Nat)
    (acc : List (Key × NBTValue)) (rest : List Nat) :
    decodeEntries (fuel + 1) acc (tag :: rest) =
      match readBytesBE 2 rest with
      | .ok (n, rest') =>
        match readRaw n rest' with
        | .ok (k, rest'') =>
          if isValidUtf8 k then
            match decodePayload fuel tag rest'' with
            | .ok (v, rest3) =>
              decodeEntries fuel (NBTCompound.insert acc k v) rest3
            | .error e => .error e
          else .error .invalidUtf8
        | .error e => .error e
      | .error e => .error e := by
  show (if tag = 0 then Except.ok (acc, rest) else _) = _
  rw [if_neg h]

theorem decode_encode_mutual :
    ∀ fuel : Nat,
    (∀ (v : NBTValue) (rest : List Nat), validV v = true →
      (encodePayload v).length ≤ fuel →
      decodePayload fuel (tagOf v) (encodePayload v ++ rest) =
        .ok (v, rest)) ∧
    (∀ (t : Nat) (items : List NBTValue) (rest : List Nat),
      validItems t items = true → (encodeItems items).length < fuel →
      decodeItems fuel t items.length (encodeItems items ++ rest) =
        .ok (items, rest)) ∧
    (∀ (entries acc : List (Key × NBTValue)) (rest : List Nat),
      validEntries entries = true → SortedKeys (acc ++ entries) →
      (encodeEntries entries).length ≤ fuel →
      decodeEntries fuel acc (encodeEntries entries ++ 0 :: rest) =
        .ok (acc ++ entries, rest)) := by
  intro fuel
  induction fuel with
  | zero =>
    refine ⟨?_, ?_, ?_⟩
    · intro v rest _ hlen
      have := encodePayload_length_pos v
      omega
    · intro t items rest _ hlen
      omega
    · intro entries acc rest hval hsort hlen
      cases entries with
      | nil =>
        rw [show encodeEntries [] = [] from rfl, List.nil_append,
          decodeEntries_term]
        simp
      | cons e entries' =>
        obtain ⟨k, v⟩ := e
        have := encodePayload_length_pos v
        simp [encodeEntries, natToBytes_length] at hlen
  | succ fuel ih =>
    obtain ⟨ihP, ihQ, ihR⟩ := ih
    refine ⟨?_, ?_, ?_⟩
    · intro v rest hval hlen
      cases v with
      | byte w =>
        simp only [validV, decide_eq_true_eq] at hval
        simp only [tagOf, encodePayload, decodePayload]
        rw [readBytesBE_natToBytes rest (by norm_num; omega)]
        norm_num
      | short w =>
        simp only [validV, decide_eq_true_eq] at hval
        simp only [tagOf, encodePayload, decodePayload]
        rw [readBytesBE_natToBytes rest (by norm_num; omega)]
        norm_num
      | int w =>
        simp only [validV, decide_eq_true_eq] at hval
        simp only [tagOf, encodePayload, decodePayload]
        rw [readBytesBE_natToBytes rest (by norm_num; omega)]
        norm_num
      | long w =>
        simp only [validV, decide_eq_true_eq] at hval
        simp only [tagOf, encodePayload, decodePayload]
        rw [readBytesBE_natToBytes rest (by norm_num; omega)]
        norm_num
      | float w =>
        simp only [validV, decide_eq_true_eq] at hval
        simp only [tagOf, encodePayload, decodePayload]
        rw [readBytesBE_natToBytes rest (by norm_num; omega)]
        norm_num
      | double w =>
        simp only [validV, decide_eq_true_eq] at hval
        simp only [tagOf, encodePayload, decodePayload]
        rw [readBytesBE_natToBytes rest (by norm_num; omega)]
        norm_num
      | byteArray w =>
        simp only [validV, Bool.and_eq_true, decide_eq_true_eq,
          List.all_eq_true] at hval
        simp only [tagOf, encodePayload, decodePayload, List.append_assoc]
        rw [readLen32_natToBytes _ hval.1]
        dsimp only
        rw [readRaw_append w rest]
        norm_num
      | string s =>
        simp only [validV, Bool.and_eq_true, decide_eq_true_eq] at hval
        simp only [tagOf, encodePayload, decodePayload, List.append_assoc]
        rw [readBytesBE_natToBytes _ (by
          have h2 : (2 : Nat) ^ 16 ≤ 256 ^ 2 := by norm_num
          omega)]
        dsimp only
        rw [readRaw_append s rest]
        dsimp only
        rw [if_pos hval.2]
        norm_num
      | list t items =>
        simp only [validV, Bool.and_eq_true, decide_eq_true_eq] at hval
        obtain ⟨⟨ht, hn⟩, hitems⟩ := hval
        simp only [encodePayload, natToBytes_length, List.length_cons,
          List.length_append] at hlen
        simp only [tagOf, encodePayload, decodePayload, List.cons_append,
          List.append_assoc]
        rw [if_pos ht]
        rw [readLen32_natToBytes _ hn]
        dsimp only
        rw [ihQ t items rest hitems (by omega)]
        norm_num
      | compound entries =>
        simp only [validV, Bool.and_eq_true] at hval
        obtain ⟨hsorted, hentries⟩ := hval
        simp only [encodePayload, List.length_append,
          List.length_singleton] at hlen
        simp only [tagOf, encodePayload, decodePayload, List.append_assoc,
          List.singleton_append]
        rw [ihR entries [] rest hentries
          (by simpa using sortedAdj_sortedKeys hsorted) (by omega)]
        norm_num
      | intArray w =>
        simp only [validV, Bool.and_eq_true, decide_eq_true_eq,
          List.all_eq_true] at hval
        simp only [tagOf, encodePayload, decodePayload, List.append_assoc]
        rw [readLen32_natToBytes _ hval.1]
        dsimp only
        rw [readMulti_join w rest (fun x hx => by
          have := hval.2 x hx
          simp only [decide_eq_true_eq] at this
          norm_num
          omega)]
        norm_num
      | longArray w =>
        simp only [validV, Bool.and_eq_true, decide_eq_true_eq,
          List.all_eq_true] at hval
        simp only [tagOf, encodePayload, decodePayload, List.append_assoc]
        rw [readLen32_natToBytes _ hval.1]
        dsimp only
        rw [readMulti_join w rest (fun x hx => by
          have := hval.2 x hx
          simp only [decide_eq_true_eq] at this
          norm_num
          omega)]
        norm_num
    · intro t items rest hval hlen
      cases items with
      | nil =>
        rw [show encodeItems [] = [] from rfl, List.nil_append]
        simp only [List.length_nil]
        rw [decodeItems_zero]
      | cons v items' =>
        simp only [validItems, Bool.and_eq_true, decide_eq_true_eq] at hval
        obtain ⟨⟨htag, hv⟩, hrest'⟩ := hval
        simp only [encodeItems, List.length_append] at hlen
        have hv1 := encodePayload_length_pos v
        simp only [encodeItems, List.length_cons, List.append_assoc]
        rw [decodeItems_succ]
        rw [← htag]
        rw [ihP v _ hv (by omega)]
        dsimp only
        rw [htag]
        rw [ihQ t items' rest hrest' (by omega)]
    · intro entries acc rest hval hsort hlen
      cases entries with
      | nil =>
        rw [show encodeEntries [] = [] from rfl, List.nil_append,
          decodeEntries_term]
        simp
      | cons e entries' =>
        obtain ⟨k, v⟩ := e
        simp only [validEntries, Bool.and_eq_true, decide_eq_true_eq]
          at hval
        obtain ⟨⟨⟨hk1, hk2⟩, hv⟩, hrest'⟩ := hval
        simp only [encodeEntries, List.length_cons, List.length_append,
          natToBytes_length] at hlen
        have hv1 := encodePayload_length_pos v
        simp only [encodeEntries, List.cons_append, List.append_assoc]
        rw [decodeEntries_cons_ne (tagOf_ne_zero v)]
        rw [readBytesBE_natToBytes _ (by
          have h2 : (2 : Nat) ^ 16 ≤ 256 ^ 2 := by norm_num
          omega)]
        dsimp only
        rw [readRaw_append k _]
        dsimp only
        rw [if_pos hk2]
        rw [ihP v _ hv (by omega)]
        dsimp only
        have hacc : SortedKeys acc ∧
            (∀ f ∈ acc, keyCompare f.1 k = .lt) ∧
            SortedKeys ((acc ++ [(k, v)]) ++ entries') := by
          rw [SortedKeys, List.pairwise_append] at hsort
          obtain ⟨hsa, hsb, hab⟩ := hsort
          refine ⟨hsa, fun f hf => hab f hf (k, v) (by simp), ?_⟩
          rw [SortedKeys, List.append_assoc, List.singleton_append,
            List.pairwise_append]
          refine ⟨hsa, hsb, fun a ha b hb => hab a ha b hb⟩
        rw [insert_append_of_all_lt hacc.1 hacc.2.1]
        rw [ihR entries' (acc ++ [(k, v)]) rest hrest' hacc.2.2
          (by omega)]
        simp

theorem decodeTop_encodeTop (name : Key) (v : NBTValue)
    (hname : name.length < 2 ^ 16) (hutf : isValidUtf8 name = true)
    (hv : validV v = true) (htag : tagOf v = 10) :
    decodeTop (encodeTop name v) = .ok (name, v) := by
  unfold encodeTop decodeTop
  rw [htag]
  dsimp only
  rw [if_pos rfl]
  rw [List.append_assoc]
  rw [readBytesBE_natToBytes _ (by
    have h2 : (2 : Nat) ^ 16 ≤ 256 ^ 2 := by norm_num
    omega)]
  dsimp only
  rw [readRaw_append name (encodePayload v)]
  dsimp only
  rw [if_pos hutf]
  have hdec := (decode_encode_mutual ((encodePayload v).length + 1)).1 v []
    hv (by omega)
  rw [List.append_nil] at hdec
  rw [← htag, hdec]

/-- C1: decode∘encode is the identity on every conforming tree — the
decoded tree is (structurally) equal to the original — and encode∘decode
is the byte identity on every stream produced by a conforming encoder. -/
theorem c1_roundtrip (name : Key) (v : NBTValue)
    (hname : name.length < 2 ^ 16) (hutf : isValidUtf8 name = true)
    (hv : validV v = true) (htag : tagOf v = 10) :
    decodeTop (encodeTop name v) = .ok (name, v) ∧
    (decodeTop (encodeTop name v)).map (fun p => encodeTop p.1 p.2) =
      .ok (encodeTop name v) := by
  have h := decodeTop_encodeTop name v hname hutf hv htag
  refine ⟨h, ?_⟩
  rw [h]
  rfl

theorem c1_roundtrip_witness :
    decodeTop (encodeTop [] (.compound [([107], .byte 1)])) =
      .ok ([], .compound [([107], .byte 1)]) ∧
    (decodeTop (encodeTop [] (.compound [([107], .byte 1)]))).map
      (fun p => encodeTop p.1 p.2) =
      .ok (encodeTop [] (.compound [([107], .byte 1)])) :=
  c1_roundtrip [] (.compound [([107], .byte 1)]) (by decide) (by decide)
    (by decide) (by decide)

/-- C9: for every element type tag T (0–12), decoding the encoding of an
empty list declared with element type T yields a list whose recorded
element type is still T, despite the list having no children. -/
theorem c9_empty_list_type_preserved (t : Nat) (name k : Key)
    (ht : t ≤ 12) (hname : name.length < 2 ^ 16)
    (hnu : isValidUtf8 name = true) (hk : k.length < 2 ^ 16)
    (hku : isValidUtf8 k = true) :
    decodeTop (encodeTop name (.compound [(k, .list t [])])) =
      .ok (name, .compound [(k, .list t [])]) := by
  apply decodeTop_encodeTop name _ hname hnu ?_ (by rfl)
  simp only [validV, validItems, validEntries, sortedAdj, Bool.and_eq_true,
    decide_eq_true_eq]
  exact ⟨trivial, ⟨⟨hk, hku⟩, ⟨ht, by norm_num⟩, trivial⟩, trivial⟩

theorem c9_empty_list_type_preserved_witness :
    decodeTop (encodeTop [] (.compound [([107], .list 3 [])])) =
      .ok ([], .compound [([107], .list 3 [])]) :=
  c9_empty_list_type_preserved 3 [] [107] (by decide) (by decide)
    (by decide) (by decide) (by decide)
